import Mathlib

set_option maxRecDepth 8000

/-!
Verification development for the PAML `codeml` module
(`Bio/Phylo/PAML/codeml.py`, Python 2).

The module is shallowly embedded: Python strings are `List Char`
(`PyStr`), the `Codeml` instance is a structure, exceptions are an
explicit error type threaded through `Except`, and the written control
file is the returned text.  The `_paml` / `_parse_codeml` collaborator
modules are not part of the repository snapshot; where the code calls
them they are treated as parameters (the results parser) or as inputs
(the already-resolved relative paths handed to the writer), following
the specification's description of those collaborators.
-/

/-- Python strings are modelled as lists of characters. -/
abbrev PyStr := List Char

/-- The characters stripped by Python's `str.strip()` with no argument:
space, tab, newline, carriage return, vertical tab, form feed. -/
def pyIsSpace (c : Char) : Bool :=
  c = ' ' || c = '\t' || c = '\n' || c = '\r' || c = Char.ofNat 11 || c = Char.ofNat 12

/-- Model of Python `s.strip()`: remove leading and trailing whitespace. -/
def pyStrip (s : PyStr) : PyStr :=
  ((s.dropWhile pyIsSpace).reverse.dropWhile pyIsSpace).reverse

/-- Model of Python `s.split(sep)` for a one-character separator `sep`
(no maxsplit): split at every occurrence, keeping empty pieces, so the
result always has one more piece than there are separators. -/
def splitChar (c : Char) : PyStr → List PyStr
  | [] => [[]]
  | x :: xs =>
    if x = c then [] :: splitChar c xs
    else
      match splitChar c xs with
      | [] => [[x]]
      | p :: ps => (x :: p) :: ps

/-- Model of Python `sep.join(pieces)` for a one-character separator. -/
def joinChar (c : Char) : List PyStr → PyStr
  | [] => []
  | [p] => p
  | p :: ps => p ++ c :: joinChar c ps

/-- Model of Python `line.partition("*")[0]`: the text before the first
`*`, or the whole string when there is none. -/
def beforeStar (s : PyStr) : PyStr := s.takeWhile (fun c => c ≠ '*')

/-- ASCII decimal digit test. -/
def isDigitCh (c : Char) : Bool := 48 ≤ c.toNat && c.toNat ≤ 57

/-- Numeric value of a most-significant-digit-first digit string. -/
def digitsToNat (ds : PyStr) : Nat := ds.foldl (fun a c => 10 * a + (c.toNat - 48)) 0

/-- The ASCII character of a decimal digit. -/
def digitCh (d : Nat) : Char := Char.ofNat (48 + d)

/-- Least-significant-first decimal digits of a positive `Nat`; the
first argument is recursion fuel (any fuel `≥ n` is exact). -/
def natDigitsRev : Nat → Nat → List Nat
  | 0, _ => []
  | _ + 1, 0 => []
  | fuel + 1, n + 1 => ((n + 1) % 10) :: natDigitsRev fuel ((n + 1) / 10)

/-- Model of Python `str`/`format` on a nonnegative integer. -/
def renderNat (n : Nat) : PyStr :=
  if n = 0 then ['0'] else ((natDigitsRev n n).map digitCh).reverse

/-- Model of Python `str`/`format` on an integer. -/
def renderInt : Int → PyStr
  | Int.ofNat n => renderNat n
  | Int.negSucc m => '-' :: renderNat (m + 1)

/-- An unsigned run of one or more decimal digits, as a number. -/
def parseDigits (ds : PyStr) : Option Nat :=
  if ds ≠ [] ∧ ds.all isDigitCh then some (digitsToNat ds) else none

/-- Model of Python `int(s)` (base 10): strip whitespace, allow one
optional sign, then require one or more decimal digits.  Returns `none`
where Python raises `ValueError`. -/
def pyInt (s : PyStr) : Option Int :=
  match pyStrip s with
  | [] => none
  | c :: cs =>
    if c = '-' then (parseDigits cs).map (fun m => -(m : Int))
    else if c = '+' then (parseDigits cs).map (fun m => (m : Int))
    else (parseDigits (c :: cs)).map (fun m => (m : Int))

/-! ### Digit-list helpers (used to relate rendering and parsing) -/

/-- Value of a least-significant-digit-first digit list. -/
def digitsRevVal : List Nat → Nat
  | [] => 0
  | d :: ds => d + 10 * digitsRevVal ds

/-- Value of a most-significant-digit-first digit list. -/
def msdVal (ds : List Nat) : Nat := ds.foldl (fun a d => 10 * a + d) 0

/-! ### Python floats

The reader calls Python `float(value)`; the writer prints stored floats
with `str`.  Real Python uses IEEE doubles; this embedding idealises a
float as the exact rational value of its decimal literal, held as a
normalized fraction (`PyRat`, with fuel-based Euclid so that every
operation reduces in the kernel).  Rendering models CPython 2.7
`str(float)` (`%.12g`: round to 12 significant digits, strip trailing
zeros, fixed notation for decimal exponents in `[-4, 12)` and
scientific notation outside, with `.0` appended to integral fixed
forms).  No claim in this development depends on IEEE rounding; floats
only need to print and parse on concrete inputs. -/

/-- Euclid's algorithm with explicit fuel (any fuel `> a` is exact). -/
def gcdFuel : Nat → Nat → Nat → Nat
  | 0, _, b => b
  | fuel + 1, a, b => if a = 0 then b else gcdFuel fuel (b % a) a

/-- An exact rational float value, kept in lowest terms by
construction. -/
structure PyRat where
  num : Int
  den : Nat
deriving DecidableEq

/-- Build a reduced fraction (positive denominators only). -/
def mkPyRat (n : Int) (d : Nat) : PyRat :=
  if d = 0 then ⟨0, 0⟩
  else
    let g := gcdFuel (n.natAbs + 1) n.natAbs d
    if g = 0 then ⟨n, d⟩ else ⟨n / g, d / g⟩

/-- Exact rational value of a Python float literal:
optional sign, `digits [. digits]` or `. digits`, optional exponent.
Returns `none` where Python `float(s)` raises `ValueError`.
(`inf`/`nan` spellings are not modelled: the reader only calls `float`
on strings containing `.`, which those are not.) -/
def pyFloat (s : PyStr) : Option PyRat :=
  let t := pyStrip s
  let sgn : Int := match t with
    | '-' :: _ => -1
    | _ => 1
  let t1 : PyStr := match t with
    | '-' :: r => r
    | '+' :: r => r
    | r => r
  let ip := t1.takeWhile isDigitCh
  let r1 := t1.dropWhile isDigitCh
  let hasDot : Bool := match r1 with
    | '.' :: _ => true
    | _ => false
  let afterDot : PyStr := match r1 with
    | '.' :: r => r
    | r => r
  let fp := if hasDot then afterDot.takeWhile isDigitCh else []
  let r2 := if hasDot then afterDot.dropWhile isDigitCh else r1
  if ip = [] ∧ fp = [] then none
  else
    let mantNum : Int := sgn * ((digitsToNat ip : Int) * 10 ^ fp.length + (digitsToNat fp : Int))
    let mantDen : Nat := 10 ^ fp.length
    match r2 with
    | [] => some (mkPyRat mantNum mantDen)
    | e :: r3 =>
      if e = 'e' ∨ e = 'E' then
        let eneg : Bool := match r3 with
          | '-' :: _ => true
          | _ => false
        let r4 : PyStr := match r3 with
          | '-' :: r => r
          | '+' :: r => r
          | r => r
        let ed := r4.takeWhile isDigitCh
        let rest := r4.dropWhile isDigitCh
        if ed = [] ∨ rest ≠ [] then none
        else if eneg then some (mkPyRat mantNum (mantDen * 10 ^ digitsToNat ed))
        else some (mkPyRat (mantNum * 10 ^ digitsToNat ed) mantDen)
      else none

/-- Smallest `k` (up to the fuel) with `d ∣ 10^k`; the last two
arguments accumulate the candidate `k` and `10^k`. -/
def findDecExp (d : Nat) : Nat → Nat → Nat → Option Nat
  | 0, _, _ => none
  | fuel + 1, k, p => if d ∣ p then some k else findDecExp d fuel (k + 1) (p * 10)

/-- Round `q` with remainder `r` out of `2*half`, ties to even. -/
def roundHalfEven (q r half : Nat) : Nat :=
  if half < r then q + 1 else if r < half then q else if q % 2 = 0 then q else q + 1

/-- Remove up to `k` trailing decimal zeros from `M`, returning the
reduced mantissa and how many decimal places remain. -/
def dropTrailZeros : Nat → Nat → Nat × Nat
  | M, 0 => (M, 0)
  | M, k + 1 =>
    if M % 10 = 0 ∧ M ≠ 0 then dropTrailZeros (M / 10) k else (M, k + 1)

/-- Model of CPython 2.7 `str(x)` / `"{0}".format(x)` for a float `x`
(`%.12g` with `.0` appended to integral fixed forms), on the exact
rational value.  Rationals without a finite decimal expansion cannot
arise as float values; they get an arbitrary fallback form. -/
def renderFloat (x : PyRat) : PyStr :=
  if x.num = 0 then ['0', '.', '0']
  else
    let sgn : PyStr := if x.num < 0 then ['-'] else []
    let g := gcdFuel (x.num.natAbs + 1) x.num.natAbs x.den
    let n := if g = 0 then x.num.natAbs else x.num.natAbs / g
    let d := if g = 0 then x.den else x.den / g
    match findDecExp d 800 0 1 with
    | none => sgn ++ renderNat n ++ '/' :: renderNat d
    | some k =>
      let M := n * 10 ^ k / d
      let L := (renderNat M).length
      let Mk1 : Nat × Int :=
        if L ≤ 12 then (M, (k : Int))
        else
          let t := L - 12
          (roundHalfEven (M / 10 ^ t) (M % 10 ^ t) (5 * 10 ^ (t - 1)), (k : Int) - (t : Int))
      let M1 := Mk1.1
      let k1 := Mk1.2
      let Mk2 : Nat × Int :=
        if 0 ≤ k1 then
          let p := dropTrailZeros M1 k1.toNat
          (p.1, (p.2 : Int))
        else (M1, k1)
      let M2 := Mk2.1
      let k2 := Mk2.2
      let digits := renderNat M2
      let e : Int := (digits.length : Int) - 1 - k2
      if -4 ≤ e ∧ e < 12 then
        -- fixed notation; here k2 ≥ 0 (an integral value keeps k2 = 0)
        if 0 ≤ e then
          let ipLen := digits.length - k2.toNat
          let ip := digits.take ipLen
          let fr := digits.drop ipLen
          if fr = [] then sgn ++ ip ++ ['.', '0'] else sgn ++ ip ++ '.' :: fr
        else
          sgn ++ '0' :: '.' :: (List.replicate (k2.toNat - digits.length) '0' ++ digits)
      else
        let rest := (digits.drop 1).reverse.dropWhile (fun c => c = '0') |>.reverse
        let mant := digits.take 1 ++ (if rest = [] then [] else '.' :: rest)
        let ed := renderNat e.natAbs
        let ed2 := if ed.length < 2 then '0' :: ed else ed
        sgn ++ mant ++ 'e' :: (if e < 0 then '-' else '+') :: ed2

/-! ### The option model -/

/-- A value held by an option of the `_options` dict: Python `int`,
`float`, `str` or list of `int` (the only shapes the module itself
produces). -/
inductive Value where
  | vInt (n : Int)
  | vFloat (q : PyRat)
  | vStr (s : PyStr)
  | vList (ns : List Int)
deriving DecidableEq

/-- Shorthand for building keys and literals. -/
def K (s : String) : PyStr := s.toList

/-- Python `str` of a list of ints, e.g. `[0, 1]` (the generic
`"{0}".format` branch of the writer, reachable only if a scalar key
held a list). -/
def renderIntListBody : List Int → PyStr
  | [] => []
  | [n] => renderInt n
  | n :: rest => renderInt n ++ ',' :: ' ' :: renderIntListBody rest

/-- Model of Python `"{0}".format(v)` for a stored option value. -/
def renderValue : Value → PyStr
  | .vInt n => renderInt n
  | .vFloat q => renderFloat q
  | .vStr s => s
  | .vList ns => '[' :: renderIntListBody ns ++ [']']

/-- Model of `" ".join(["{0}".format(site) for site in v])` for the
`NSsites` value.  On a non-list value Python would raise `TypeError`
(or iterate a string); every theorem below constrains `NSsites` to hold
a list, so the non-list branch is unreachable and given an arbitrary
total fallback. -/
def renderNSsites : Value → PyStr
  | .vList ns => joinChar ' ' (ns.map renderInt)
  | v => renderValue v

/-- The fixed key set of `Codeml._options`, in the declaration order of
`Codeml.__init__`. -/
def optionKeys : List PyStr :=
  [K "noisy", K "verbose", K "runmode", K "seqtype", K "CodonFreq", K "ndata",
   K "clock", K "aaDist", K "aaRatefile", K "model", K "NSsites", K "icode",
   K "Mgene", K "fix_kappa", K "kappa", K "fix_omega", K "omega", K "fix_alpha",
   K "alpha", K "Malpha", K "ncatG", K "getSE", K "RateAncestor", K "Small_Diff",
   K "cleandata", K "fix_blength", K "method"]

/-- The default `_options` contents set by `Codeml.__init__`
(`None` = absent). -/
def defaultOptions : List (PyStr × Option Value) :=
  [(K "noisy", some (.vInt 9)),
   (K "verbose", some (.vInt 1)),
   (K "runmode", some (.vInt 0)),
   (K "seqtype", some (.vInt 2)),
   (K "CodonFreq", some (.vInt 2)),
   (K "ndata", none),
   (K "clock", some (.vInt 0)),
   (K "aaDist", some (.vInt 0)),
   (K "aaRatefile", some (.vStr (K "dat/jones.dat"))),
   (K "model", some (.vInt 2)),
   (K "NSsites", some (.vList [0])),
   (K "icode", some (.vInt 0)),
   (K "Mgene", some (.vInt 0)),
   (K "fix_kappa", some (.vInt 0)),
   (K "kappa", some (.vInt 2)),
   (K "fix_omega", some (.vInt 0)),
   (K "omega", some (.vFloat ⟨2, 5⟩)),        -- 0.4
   (K "fix_alpha", some (.vInt 1)),
   (K "alpha", some (.vInt 0)),
   (K "Malpha", some (.vInt 0)),
   (K "ncatG", some (.vInt 8)),
   (K "getSE", some (.vInt 0)),
   (K "RateAncestor", some (.vInt 1)),
   (K "Small_Diff", some (.vFloat ⟨1, 2000000⟩)),  -- 0.5e-6
   (K "cleandata", some (.vInt 1)),
   (K "fix_blength", none),
   (K "method", some (.vInt 0))]

/-- The mutable state of a `Codeml` instance that the control-file
codec touches: the three path fields and the `_options` dict.  The dict
is represented as an association list whose list order records
insertion order (CPython 2 dicts are unordered for iteration but their
contents are a key-value map; see `dictIterKeys` for iteration). -/
structure Codeml where
  alignment : Option PyStr
  tree : Option PyStr
  out_file : Option PyStr
  _options : List (PyStr × Option Value)
deriving DecidableEq

/-- Model of `Codeml.__init__`: stores the paths and the default options.  (The
constructor's existence check on the tree file queries the file system,
an external collaborator, and does not affect the stored state.) -/
def codemlInit (alignment tree out_file : Option PyStr) : Codeml :=
  { alignment := alignment, tree := tree, out_file := out_file,
    _options := defaultOptions }

/-! ### CPython 2 dict iteration order

`write_ctl_file` iterates `self._options.items()`.  A CPython 2 dict
is an open-addressing hash table; its iteration order is the table
slot order, which for string keys is determined by the CPython string
hash (deterministic: CPython 2 runs with hash randomisation off by
default) and the insertion sequence.  The following is a model of the
CPython 2.7 (64-bit) string hash and dict insertion/resize routines,
sufficient to compute the iteration order of a dict built by inserting
distinct keys in a given order (no deletions, no value updates that
move keys — exactly the life cycle of `self._options`). -/

/-- 2^64, the word size of the modelled build. -/
def w64 : Nat := 18446744073709551616

/-- CPython 2.7 string hash (64-bit build, hash randomisation off):
`x = s[0] << 7; for c in s: x = (1000003*x) ^ c; x ^= len(s)`,
wrapping mod 2^64, with the reserved value -1 mapped to -2. -/
def pyHashStr (s : PyStr) : Nat :=
  match s with
  | [] => 0
  | c0 :: _ =>
    let x0 := (c0.toNat * 128) % w64
    let x1 := s.foldl (fun x c => ((1000003 * x) % w64) ^^^ c.toNat) x0
    let x2 := x1 ^^^ s.length
    if x2 = w64 - 1 then w64 - 2 else x2

/-- CPython dict probing (`lookdict`): start at `hash & mask`, then
repeat `i = 5*i + perturb + 1; perturb >>= 5`, reading slot `i & mask`,
until a free slot is found.  All keys distinct, so the first free slot
is where the key lands.  Fuel makes the recursion structural; it is
never exhausted for the inputs used. -/
def probeSlot (tbl : List (Option PyStr)) : Nat → Nat → Nat → Nat
  | 0, _, _ => 0
  | fuel + 1, i, perturb =>
    let slot := i % tbl.length
    match tbl.get? slot with
    | some none => slot
    | _ => probeSlot tbl fuel ((5 * i + perturb + 1) % w64) (perturb / 32)

/-- Insert a (new) key into the table at the slot probing finds. -/
def dictInsertKey (tbl : List (Option PyStr)) (key : PyStr) : List (Option PyStr) :=
  let h := pyHashStr key
  let slot := probeSlot tbl (64 * (tbl.length + 1)) (h % tbl.length) h
  tbl.set slot (some key)

/-- A CPython dict with string keys: the slot table and the fill count
(equal to the used count here — no deletions ever occur). -/
structure PyDict where
  table : List (Option PyStr)
  fill : Nat

/-- Model of `dictresize`'s size computation: the smallest size `8·2^j`
exceeding `minused`. -/
def growSize (minused : Nat) : Nat → Nat → Nat
  | 0, cur => cur
  | fuel + 1, cur => if cur ≤ minused then growSize minused fuel (2 * cur) else cur

/-- Model of `dictresize`: allocate the new table and re-insert the old slots in
slot order. -/
def dictResize (d : PyDict) (minused : Nat) : PyDict :=
  let newsize := growSize minused 64 8
  let newtbl := d.table.foldl
    (fun t e =>
      match e with
      | some k => dictInsertKey t k
      | none => t)
    (List.replicate newsize none)
  { table := newtbl, fill := d.fill }

/-- Model of `PyDict_SetItem` for a new key: insert, then resize to `4*used`
when `fill*3 >= size*2` (the used count stays below 50000 here). -/
def dictAdd (d : PyDict) (key : PyStr) : PyDict :=
  let tbl := dictInsertKey d.table key
  let fill := d.fill + 1
  if 2 * tbl.length ≤ 3 * fill then dictResize { table := tbl, fill := fill } (4 * fill)
  else { table := tbl, fill := fill }

/-- The dict built by a Python dict display: `BUILD_MAP` presizes via
`_PyDict_NewPresized(n)` when `n > 5`, then the items are stored in
textual order. -/
def dictFromKeys (keys : List PyStr) : PyDict :=
  let d0 : PyDict := { table := List.replicate 8 none, fill := 0 }
  let d1 := if 5 < keys.length then dictResize d0 keys.length else d0
  keys.foldl dictAdd d1

/-- Iteration order of `d.keys()` / `d.items()`: occupied slots in
table order. -/
def dictIterKeys (keys : List PyStr) : List PyStr :=
  (dictFromKeys keys).table.filterMap id

/-! ### The control-file writer (`Codeml.write_ctl_file`) -/

/-- One option line `"{0} = {1}"`, with the `NSsites` special case. -/
def ctlOptionLine (k : PyStr) (v : Value) : PyStr :=
  if k = K "NSsites" then k ++ ' ' :: '=' :: ' ' :: renderNSsites v
  else k ++ ' ' :: '=' :: ' ' :: renderValue v

/-- Dict (key-value map) lookup in the association-list representation. -/
def optLookup (opts : List (PyStr × Option Value)) (k : PyStr) : Option (Option Value) :=
  match opts with
  | [] => none
  | (k', v) :: rest => if k' = k then some v else optLookup rest k

/-- The lines `Codeml.write_ctl_file` writes: the three path lines
(`seqfile`, `outfile`, `treefile`, from the pre-resolved relative paths
supplied by the `_paml` path resolver), then one line per non-`None`
option in the iteration order of the `_options` dict; `None` options
are skipped. -/
def write_ctl_lines (rel_alignment rel_out_file rel_tree : PyStr)
    (opts : List (PyStr × Option Value)) : List PyStr :=
  (K "seqfile = " ++ rel_alignment) ::
  (K "outfile = " ++ rel_out_file) ::
  (K "treefile = " ++ rel_tree) ::
  (dictIterKeys (opts.map Prod.fst)).filterMap (fun k =>
    match optLookup opts k with
    | some (some v) => some (ctlOptionLine k v)
    | _ => none)

/-- Concatenate lines, each terminated by `"\n"`, into file contents. -/
def joinLines (ls : List PyStr) : PyStr := ls.foldr (fun l acc => l ++ '\n' :: acc) []

/-- Model of `Codeml.write_ctl_file`: the control-file text written (the file
system side effect is modelled by returning the contents). -/
def write_ctl_file (rel_alignment rel_out_file rel_tree : PyStr) (c : Codeml) : PyStr :=
  joinLines (write_ctl_lines rel_alignment rel_out_file rel_tree c._options)

/-- Modelled from the spec (§4.1/§4.2 of `spec.md`): the writer the
specification describes, identical to `write_ctl_lines` except that
option lines appear in the declared stable key order (the insertion
order of `_options`) instead of the dict's incidental iteration order.
Used to compare the source behaviour against the specified one. -/
def write_ctl_lines_declared (rel_alignment rel_out_file rel_tree : PyStr)
    (opts : List (PyStr × Option Value)) : List PyStr :=
  (K "seqfile = " ++ rel_alignment) ::
  (K "outfile = " ++ rel_out_file) ::
  (K "treefile = " ++ rel_tree) ::
  opts.filterMap (fun p =>
    match p.2 with
    | some v => some (ctlOptionLine p.1 v)
    | none => none)

/-! ### The control-file reader (`Codeml.read_ctl_file`) -/

/-- The exceptions `read_ctl_file` raises, with their payloads:
`malformedLine` is the `AttributeError` for a line without `=` (its
payload is the stripped line text interpolated into the message);
`unpackErr` is the `ValueError` from unpacking `uncommented.split("=")`
into two variables when the line has two or more `=`; `siteClass` is
the `TypeError` naming an `NSsites` token that is not an integer;
`invalidOption` is the `KeyError` naming an unknown option key. -/
inductive CtlErr where
  | malformedLine (line : PyStr)
  | unpackErr
  | siteClass (token : PyStr)
  | invalidOption (key : PyStr)
deriving DecidableEq

/-- The local `temp_options` dict, as a lookup function. -/
abbrev Temp := PyStr → Option Value

def emptyTemp : Temp := fun _ => none

/-- Model of `temp_options[k] = v`. -/
def tempSet (t : Temp) (k : PyStr) (v : Value) : Temp :=
  fun x => if x = k then some v else t x

/-- The site-class loop: convert each whitespace-split token with
`int`, failing at the first non-integer token (named in the error). -/
def parseSiteClasses : List PyStr → Except PyStr (List Int)
  | [] => .ok []
  | t :: ts =>
    match pyInt t with
    | none => .error t
    | some n =>
      match parseSiteClasses ts with
      | .error e => .error e
      | .ok ns => .ok (n :: ns)

/-- The type-inference branch of the reader: a value containing `.`
tries `float` then falls back to the raw string; otherwise it tries
`int` then falls back to the raw string. -/
def inferValue (v : PyStr) : Value :=
  if '.' ∈ v then
    match pyFloat v with
    | some q => .vFloat q
    | none => .vStr v
  else
    match pyInt v with
    | some n => .vInt n
    | none => .vStr v

/-- The key dispatch of the reader, after a line has been stripped,
un-commented and split into a trimmed key `o` and value `v`:
`seqfile`/`treefile`/`outfile` assign the path fields directly,
`NSsites` parses a site-class list, any other known key stores its
type-inferred value in `temp_options`, and an unknown key raises
`KeyError`. -/
def processParsed (c : Codeml) (temp : Temp) (o v : PyStr) :
    Except (CtlErr × Codeml) (Codeml × Temp) :=
  if o = K "seqfile" then .ok ({ c with alignment := some v }, temp)
  else if o = K "treefile" then .ok ({ c with tree := some v }, temp)
  else if o = K "outfile" then .ok ({ c with out_file := some v }, temp)
  else if o = K "NSsites" then
    match parseSiteClasses (splitChar ' ' v) with
    | .error tok => .error (.siteClass tok, c)
    | .ok ns => .ok (c, tempSet temp (K "NSsites") (.vList ns))
  else if o ∈ c._options.map Prod.fst then .ok (c, tempSet temp o (inferValue v))
  else .error (.invalidOption o, c)

/-- One iteration of the `for line in ctl_handle` loop of
`read_ctl_file`: strip the line, cut at the comment marker, skip the
line if nothing remains, raise `AttributeError` if it has no `=`,
unpack `split("=")` into exactly two pieces (raising `ValueError`
otherwise), trim both and dispatch.  On an exception the Python object
keeps whatever path-field assignments already happened, so errors carry
the state at the moment of the raise. -/
def processLine (st : Codeml × Temp) (raw : PyStr) :
    Except (CtlErr × Codeml) (Codeml × Temp) :=
  let c := st.1
  let temp := st.2
  let line := pyStrip raw
  let uncommented := beforeStar line
  if uncommented = [] then .ok st
  else if '=' ∉ uncommented then .error (.malformedLine line, c)
  else
    match splitChar '=' uncommented with
    | [o0, v0] => processParsed c temp (pyStrip o0) (pyStrip v0)
    | _ => .error (.unpackErr, c)

/-- The line loop of `read_ctl_file`. -/
def runLines : Codeml × Temp → List PyStr → Except (CtlErr × Codeml) (Codeml × Temp)
  | st, [] => .ok st
  | st, l :: ls =>
    match processLine st l with
    | .error e => .error e
    | .ok st' => runLines st' ls

/-- Model of `Codeml.read_ctl_file` on the file's lines: run the line loop,
then replace every key of `_options` by its pending `temp_options`
value (`None` when the file did not assign it). -/
def read_ctl_lines (c : Codeml) (lines : List PyStr) :
    Except (CtlErr × Codeml) Codeml :=
  match runLines (c, emptyTemp) lines with
  | .error e => .error e
  | .ok (c', temp) =>
    .ok { c' with _options := c'._options.map (fun p => (p.1, temp p.1)) }

/-- Model of `Codeml.read_ctl_file` on raw file contents (Python's line
iteration plus the leading `strip()` is line-splitting on `"\n"`). -/
def read_ctl_file (c : Codeml) (contents : PyStr) :
    Except (CtlErr × Codeml) Codeml :=
  read_ctl_lines c (splitChar '\n' contents)

/-! ### The results parser wrapper (module-level `read`) -/

/-- The errors of `read`: `IOError` for a missing results file,
`ValueError("Invalid results file")` for an empty extraction. -/
inductive ResErr where
  | ioError
  | emptyResult
deriving DecidableEq

/-- Module-level `read(results_file)`.  The four extraction passes live
in `_parse_codeml`, which is not part of this repository snapshot; they
are taken as parameters mutating the `results` collection (`α` is the
unknown entry type).  File existence is the `os.path.exists` answer.
`read` touches no `Codeml` state. -/
def codeml.read {α : Type} (parse_basics : List PyStr → List α → List α × Bool)
    (parse_nssites : List PyStr → List α → Bool → List α)
    (parse_pairwise : List PyStr → List α → List α)
    (parse_distances : List PyStr → List α → List α)
    (results_exists : Bool) (lines : List PyStr) : Except ResErr (List α) :=
  let results : List α := []
  if results_exists = false then .error .ioError
  else
    let pb := parse_basics lines results
    let multi_models := pb.2
    let r1 := pb.1
    let r2 := parse_nssites lines r1 multi_models
    let r3 := parse_pairwise lines r2
    let r4 := parse_distances lines r3
    if r4.length = 0 then .error .emptyResult
    else .ok r4

/-! ### Predicates and abbreviations used by the theorems -/

/-- The right half of `pyStrip`: remove trailing whitespace. -/
def stripRight (s : PyStr) : PyStr := (s.reverse.dropWhile pyIsSpace).reverse

/-- States that `_options` holds exactly the canonical key set, in insertion
order (the state invariant established by `__init__`). -/
abbrev ValidOpts (opts : List (PyStr × Option Value)) : Prop :=
  opts.map Prod.fst = optionKeys

/-- A string value that survives the control-file codec: already
stripped, free of the structural characters (`=`, `*`, newline), and
not re-typed by the reader's inference (not an `int` literal; not a
`float` literal when it contains `.`). -/
def cleanStr (s : PyStr) : Bool :=
  decide (pyStrip s = s) && decide ('=' ∉ s) && decide ('*' ∉ s) && decide ('\n' ∉ s) &&
    (if '.' ∈ s then decide (pyFloat s = none) else decide (pyInt s = none))

/-- An option entry whose value round-trips through the control file:
absent values always do; `NSsites` must hold a nonempty int list (the
spec's well-typedness for the one list-valued key); other keys must
hold an int or a codec-safe string.  Floats are excluded because
rendering can drop the decimal point (e.g. `5e-07`), after which the
reader re-types the value as a string. -/
def cleanEntry : PyStr × Option Value → Bool
  | (_, none) => true
  | (k, some (.vList ns)) => decide (k = K "NSsites") && decide (ns ≠ [])
  | (k, some (.vInt _)) => decide (k ≠ K "NSsites")
  | (k, some (.vStr s)) => decide (k ≠ K "NSsites") && cleanStr s
  | (_, some (.vFloat _)) => false

/-- All entries of `_options` are `cleanEntry`. -/
abbrev CleanOpts (opts : List (PyStr × Option Value)) : Prop :=
  ∀ p ∈ opts, cleanEntry p = true

/-- A path string that keeps the reader's line structure intact: no
`=` (which would over-split the assignment line) and no newline. -/
abbrev PathOk (p : PyStr) : Prop := '=' ∉ p ∧ '\n' ∉ p

/-- The iteration order of the `_options` dict built by `__init__`. -/
def dictOrderKeys : List PyStr := dictIterKeys optionKeys

/-- Equality of reader outcomes is decidable (used to evaluate the
codec on concrete inputs). -/
instance exceptDecEq {e a : Type} [DecidableEq e] [DecidableEq a] : DecidableEq (Except e a) :=
  fun x y =>
    match x, y with
    | .ok u, .ok v => decidable_of_iff (u = v) (by simp)
    | .error u, .error v => decidable_of_iff (u = v) (by simp)
    | .ok _, .error _ => isFalse (by simp)
    | .error _, .ok _ => isFalse (by simp)

/-- The key a reader identifies in a line: the text before the first
`=`, trimmed. -/
def lineKey (l : PyStr) : PyStr := pyStrip (l.takeWhile (fun c => c ≠ '='))

/-- Whether a dict lookup found a present, non-`None` value. -/
def isSet (w : Option (Option Value)) : Bool :=
  match w with
  | some (some _) => true
  | _ => false

/-- The default options with the two float-valued options cleared: a
concrete state whose every entry is `cleanEntry`. -/
def cleanExampleOptions : List (PyStr × Option Value) :=
  defaultOptions.map
    (fun p => if p.1 = K "omega" ∨ p.1 = K "Small_Diff" then (p.1, none) else p)

/-- A concrete `Codeml` state used to exercise the round-trip. -/
def cleanExample : Codeml :=
  { alignment := some (K "a.phy"), tree := some (K "t.nwk"),
    out_file := some (K "o.txt"), _options := cleanExampleOptions }

/-- Modelled from the spec's words for C6 ("split the value on
whitespace"), to compare with the source's `value.split(" ")`:
Python's no-argument `value.split()`, which separates tokens at runs of
any whitespace and produces no empty tokens.  Accumulator-based so it
reduces in the kernel. -/
def splitWsAux : PyStr → PyStr → List PyStr
  | acc, [] => if acc = [] then [] else [acc.reverse]
  | acc, c :: cs =>
    if pyIsSpace c then
      if acc = [] then splitWsAux [] cs else acc.reverse :: splitWsAux [] cs
    else splitWsAux (c :: acc) cs

/-- See `splitWsAux`: the spec-described whitespace split. -/
def splitWhitespaceSpec (s : PyStr) : List PyStr := splitWsAux [] s

/-! ## Lemmas -/

/-! ### Basic lemmas about the string utilities -/

theorem splitChar_cons_of_ne {x c : Char} (xs : PyStr) (h : ¬ x = c) :
    splitChar c (x :: xs) =
      match splitChar c xs with
      | [] => [[x]]
      | p :: ps => (x :: p) :: ps := by
  simp [splitChar, h]

theorem splitChar_ne_nil (c : Char) (s : PyStr) : splitChar c s ≠ [] := by
  induction s with
  | nil => simp [splitChar]
  | cons x xs ih =>
    by_cases h : x = c
    · subst h; simp [splitChar]
    · rw [splitChar_cons_of_ne xs h]
      cases splitChar c xs with
      | nil => simp
      | cons p ps => simp

/-- Splitting a string that does not contain the separator. -/
theorem splitChar_of_not_mem {c : Char} {s : PyStr} (h : c ∉ s) :
    splitChar c s = [s] := by
  induction s with
  | nil => rfl
  | cons x xs ih =>
    simp only [List.mem_cons, not_or] at h
    rw [splitChar_cons_of_ne xs (fun hx => h.1 hx.symm), ih h.2]

/-- Splitting at an explicit first separator occurrence. -/
theorem splitChar_append {c : Char} {a : PyStr} (b : PyStr) (h : c ∉ a) :
    splitChar c (a ++ c :: b) = a :: splitChar c b := by
  induction a with
  | nil => simp [splitChar]
  | cons x xs ih =>
    simp only [List.mem_cons, not_or] at h
    rw [List.cons_append, splitChar_cons_of_ne _ (fun hx => h.1 hx.symm), ih h.2]

theorem beforeStar_of_not_mem {s : PyStr} (h : '*' ∉ s) : beforeStar s = s := by
  induction s with
  | nil => rfl
  | cons x xs ih =>
    simp only [List.mem_cons, not_or] at h
    simp only [beforeStar, List.takeWhile_cons]
    rw [if_pos (by simp; exact fun hx => h.1 hx.symm)]
    simpa [beforeStar] using ih h.2

theorem dropWhile_eq_self_of (p : Char → Bool) (s : PyStr)
    (h : ∀ c ∈ s, p c = false) : s.dropWhile p = s := by
  cases s with
  | nil => rfl
  | cons x xs => simp [List.dropWhile_cons, h x (by simp)]

/-- A string none of whose characters is whitespace strips to itself. -/
theorem pyStrip_of_no_space {s : PyStr} (h : ∀ c ∈ s, pyIsSpace c = false) :
    pyStrip s = s := by
  unfold pyStrip
  rw [dropWhile_eq_self_of _ _ h,
    dropWhile_eq_self_of _ _ (fun c hc => h c (List.mem_reverse.mp hc)),
    List.reverse_reverse]

theorem pyStrip_nil : pyStrip [] = [] := rfl

theorem natDigitsRev_val : ∀ fuel n, n ≤ fuel → digitsRevVal (natDigitsRev fuel n) = n := by
  intro fuel
  induction fuel with
  | zero => intro n hn; interval_cases n; rfl
  | succ f ih =>
    intro n hn
    match n with
    | 0 => rfl
    | m + 1 =>
      have hdiv : (m + 1) / 10 ≤ f := by
        have h1 : (m + 1) / 10 < m + 1 := Nat.div_lt_self (Nat.succ_pos m) (by omega)
        omega
      simp only [natDigitsRev, digitsRevVal, ih _ hdiv]
      omega

theorem natDigitsRev_lt : ∀ fuel n d, d ∈ natDigitsRev fuel n → d < 10 := by
  intro fuel
  induction fuel with
  | zero => intro n d hd; simp [natDigitsRev] at hd
  | succ f ih =>
    intro n d hd
    match n with
    | 0 => simp [natDigitsRev] at hd
    | m + 1 =>
      simp only [natDigitsRev, List.mem_cons] at hd
      rcases hd with h | h
      · omega
      · exact ih _ _ h

theorem msdVal_reverse (ds : List Nat) : msdVal ds.reverse = digitsRevVal ds := by
  induction ds with
  | nil => rfl
  | cons d ds ih =>
    simp only [List.reverse_cons, msdVal, List.foldl_append, List.foldl_cons,
      List.foldl_nil, digitsRevVal]
    simp only [msdVal] at ih
    omega

theorem toNat_digitCh {d : Nat} (h : d < 10) : (digitCh d).toNat = 48 + d := by
  interval_cases d <;> rfl

theorem isDigitCh_digitCh {d : Nat} (h : d < 10) : isDigitCh (digitCh d) = true := by
  interval_cases d <;> rfl

theorem digitsToNat_map_digitCh (ds : List Nat) (h : ∀ d ∈ ds, d < 10) :
    digitsToNat (ds.map digitCh) = msdVal ds := by
  have key : ∀ a, (ds.map digitCh).foldl (fun a c => 10 * a + (c.toNat - 48)) a =
      ds.foldl (fun a d => 10 * a + d) a := by
    induction ds with
    | nil => intro a; rfl
    | cons d ds ih =>
      intro a
      simp only [List.map_cons, List.foldl_cons]
      rw [toNat_digitCh (h d (by simp))]
      have := ih (fun x hx => h x (by simp [hx]))
      rw [this]
      congr 1
      omega
  simpa [digitsToNat, msdVal] using key 0

theorem renderNat_all_digits (n : Nat) : ∀ c ∈ renderNat n, isDigitCh c = true := by
  intro c hc
  unfold renderNat at hc
  split at hc
  · simp at hc; subst hc; rfl
  · simp only [List.mem_reverse, List.mem_map] at hc
    obtain ⟨d, hd, rfl⟩ := hc
    exact isDigitCh_digitCh (natDigitsRev_lt _ _ _ hd)

theorem renderNat_ne_nil (n : Nat) : renderNat n ≠ [] := by
  unfold renderNat
  split
  · simp
  · intro h
    simp only [List.reverse_eq_nil_iff, List.map_eq_nil_iff] at h
    have : digitsRevVal (natDigitsRev n n) = n := natDigitsRev_val n n le_rfl
    rw [h] at this
    simp [digitsRevVal] at this
    omega

theorem digitsToNat_renderNat (n : Nat) : digitsToNat (renderNat n) = n := by
  unfold renderNat
  split
  · subst n; decide
  · rw [← List.map_reverse, digitsToNat_map_digitCh _
      (fun d hd => natDigitsRev_lt _ _ _ (List.mem_reverse.mp hd)),
      msdVal_reverse, natDigitsRev_val n n le_rfl]

theorem parseDigits_renderNat (n : Nat) : parseDigits (renderNat n) = some n := by
  unfold parseDigits
  rw [if_pos ⟨renderNat_ne_nil n, by simpa [List.all_eq_true] using renderNat_all_digits n⟩,
    digitsToNat_renderNat]

theorem isDigitCh_not_space {c : Char} (h : isDigitCh c = true) : pyIsSpace c = false := by
  revert h
  unfold isDigitCh pyIsSpace
  intro h
  simp only [Bool.and_eq_true, decide_eq_true_eq] at h
  simp only [Bool.or_eq_false_iff, decide_eq_false_iff_not]
  refine ⟨⟨⟨⟨⟨?_, ?_⟩, ?_⟩, ?_⟩, ?_⟩, ?_⟩ <;>
    (intro hc; subst hc; revert h; decide)

theorem isDigitCh_ne {c d : Char} (h : isDigitCh c = true) (hd : isDigitCh d = false) :
    c ≠ d := by
  intro hcd; subst hcd; rw [h] at hd; cases hd

theorem renderNat_chars (n : Nat) :
    ∀ c ∈ renderNat n, pyIsSpace c = false ∧ c ≠ '=' ∧ c ≠ '*' ∧ c ≠ '\n' ∧ c ≠ '.' := by
  intro c hc
  have hd := renderNat_all_digits n c hc
  exact ⟨isDigitCh_not_space hd, isDigitCh_ne hd (by decide), isDigitCh_ne hd (by decide),
    isDigitCh_ne hd (by decide), isDigitCh_ne hd (by decide)⟩

theorem renderInt_chars (i : Int) :
    ∀ c ∈ renderInt i, pyIsSpace c = false ∧ c ≠ '=' ∧ c ≠ '*' ∧ c ≠ '\n' ∧ c ≠ '.' := by
  intro c hc
  match i with
  | Int.ofNat n => exact renderNat_chars n c hc
  | Int.negSucc m =>
    simp only [renderInt, List.mem_cons] at hc
    rcases hc with rfl | hc
    · exact ⟨by decide, by decide, by decide, by decide, by decide⟩
    · exact renderNat_chars (m + 1) c hc

theorem renderInt_ne_nil (i : Int) : renderInt i ≠ [] := by
  match i with
  | Int.ofNat n => exact renderNat_ne_nil n
  | Int.negSucc m => simp [renderInt]

theorem pyStrip_renderInt (i : Int) : pyStrip (renderInt i) = renderInt i :=
  pyStrip_of_no_space (fun c hc => (renderInt_chars i c hc).1)

/-- Python `int` parses back exactly what Python `str` printed. -/
theorem pyInt_renderInt (i : Int) : pyInt (renderInt i) = some i := by
  unfold pyInt
  rw [pyStrip_renderInt]
  match i with
  | Int.ofNat n =>
    have hne := renderNat_ne_nil n
    match h : renderNat n with
    | [] => exact absurd h hne
    | c :: cs =>
      have hd : isDigitCh c = true := renderNat_all_digits n c (by rw [h]; simp)
      simp only [renderInt, h]
      rw [if_neg (isDigitCh_ne hd (by decide)), if_neg (isDigitCh_ne hd (by decide))]
      rw [← h, parseDigits_renderNat]
      rfl
  | Int.negSucc m =>
    simp [renderInt, parseDigits_renderNat, Int.negSucc_eq]



/-! ### Append lemmas for `dropWhile`/`takeWhile` and membership -/

theorem dropWhile_append_of_dropWhile_nil {p : Char → Bool} {u : PyStr} (w : PyStr)
    (h : u.dropWhile p = []) : (u ++ w).dropWhile p = w.dropWhile p := by
  induction u with
  | nil => rfl
  | cons x xs ih =>
    rw [List.dropWhile_cons] at h
    by_cases hx : p x
    · rw [if_pos hx] at h
      rw [List.cons_append, List.dropWhile_cons, if_pos hx]
      exact ih h
    · rw [if_neg hx] at h; cases h

theorem dropWhile_append_of_ne_nil {p : Char → Bool} {u : PyStr} (w : PyStr)
    (h : u.dropWhile p ≠ []) : (u ++ w).dropWhile p = u.dropWhile p ++ w := by
  induction u with
  | nil => simp [List.dropWhile_nil] at h
  | cons x xs ih =>
    by_cases hx : p x
    · rw [List.dropWhile_cons, if_pos hx] at h ⊢
      rw [List.cons_append, List.dropWhile_cons, if_pos hx]
      exact ih h
    · rw [List.cons_append, List.dropWhile_cons, if_neg hx,
        List.dropWhile_cons, if_neg hx, List.cons_append]

theorem takeWhile_append_of_all {p : Char → Bool} {u : PyStr} (w : PyStr)
    (h : ∀ c ∈ u, p c = true) : (u ++ w).takeWhile p = u ++ w.takeWhile p := by
  induction u with
  | nil => rfl
  | cons x xs ih =>
    rw [List.cons_append, List.takeWhile_cons, if_pos (h x (by simp)),
      ih (fun c hc => h c (by simp [hc])), List.cons_append]

theorem mem_stripRight {c : Char} {s : PyStr} (h : c ∈ stripRight s) : c ∈ s := by
  unfold stripRight at h
  rw [List.mem_reverse] at h
  have := (List.dropWhile_suffix pyIsSpace).sublist.subset h
  rwa [List.mem_reverse] at this

theorem mem_beforeStar {c : Char} {s : PyStr} (h : c ∈ beforeStar s) : c ∈ s :=
  (List.takeWhile_prefix (fun ch => ch ≠ '*')).sublist.subset h

/-! ### Stripping the lines the writer builds -/

theorem pyStrip_cons_space (s : PyStr) : pyStrip (' ' :: s) = pyStrip s := by
  unfold pyStrip
  rw [List.dropWhile_cons, if_pos (by decide)]

theorem strip_id_parts {s : PyStr} (h : pyStrip s = s) :
    s.dropWhile pyIsSpace = s ∧ s.reverse.dropWhile pyIsSpace = s.reverse := by
  have h1 : (s.dropWhile pyIsSpace) <:+ s := List.dropWhile_suffix _
  have h2 : ((s.dropWhile pyIsSpace).reverse.dropWhile pyIsSpace) <:+
      (s.dropWhile pyIsSpace).reverse := List.dropWhile_suffix _
  have hlb : ((s.dropWhile pyIsSpace).reverse.dropWhile pyIsSpace).length = s.length := by
    have := congrArg List.length h
    simpa [pyStrip] using this
  have hla : (s.dropWhile pyIsSpace).length = s.length := by
    have e1 := h1.length_le
    have e2 := h2.length_le
    rw [List.length_reverse] at e2
    omega
  have ha : s.dropWhile pyIsSpace = s := h1.eq_of_length hla
  refine ⟨ha, ?_⟩
  have hb : pyStrip s = (s.reverse.dropWhile pyIsSpace).reverse := by
    unfold pyStrip; rw [ha]
  rw [hb] at h
  have := congrArg List.reverse h
  simpa using this

theorem stripRight_eq_self {s : PyStr} (h : pyStrip s = s) : stripRight s = s := by
  unfold stripRight
  rw [(strip_id_parts h).2, List.reverse_reverse]

theorem pyStrip_append_space {k : PyStr} (hk1 : k ≠ [])
    (hk2 : ∀ c ∈ k, pyIsSpace c = false) : pyStrip (k ++ [' ']) = k := by
  unfold pyStrip
  rw [dropWhile_append_of_ne_nil _ (by rw [dropWhile_eq_self_of _ _ hk2]; exact hk1),
    dropWhile_eq_self_of _ _ hk2, List.reverse_append]
  show ((' ' :: k.reverse).dropWhile pyIsSpace).reverse = k
  rw [List.dropWhile_cons, if_pos (by decide),
    dropWhile_eq_self_of _ _ (fun c hc => hk2 c (List.mem_reverse.mp hc)),
    List.reverse_reverse]

/-- Stripping a line of the form `k = v` built by the writer: the key
part stays, the value keeps its leading separator space only when the
right-stripped value is nonempty. -/
theorem pyStrip_assign_line (k p : PyStr) (hk1 : k ≠ [])
    (hk2 : ∀ c ∈ k, pyIsSpace c = false) :
    pyStrip (k ++ ' ' :: '=' :: ' ' :: p) =
      k ++ ' ' :: '=' :: (if stripRight p = [] then [] else ' ' :: stripRight p) := by
  unfold pyStrip
  rw [dropWhile_append_of_ne_nil _ (by rw [dropWhile_eq_self_of _ _ hk2]; exact hk1),
    dropWhile_eq_self_of _ _ hk2, List.reverse_append]
  have hsplit : (' ' :: '=' :: ' ' :: p).reverse = p.reverse ++ [' ', '=', ' '] := by simp
  rw [hsplit, List.append_assoc]
  by_cases hp : p.reverse.dropWhile pyIsSpace = []
  · rw [if_pos (by unfold stripRight; rw [hp]; rfl),
      dropWhile_append_of_dropWhile_nil _ hp]
    simp only [List.cons_append, List.nil_append]
    rw [List.dropWhile_cons, if_pos (by decide), List.dropWhile_cons, if_neg (by decide)]
    simp
  · rw [if_neg (by unfold stripRight; simpa using hp),
      dropWhile_append_of_ne_nil _ hp, List.reverse_append]
    unfold stripRight
    simp

/-! ### Processing writer-built lines -/

/-- Processing an assignment line `k = p` whose key is clean: the line
parses into the trimmed key `k` and the trimmed, comment-cut value, and
control passes to the key dispatch. -/
theorem processLine_assign (c : Codeml) (temp : Temp) (k p : PyStr)
    (hk1 : k ≠ []) (hk2 : ∀ ch ∈ k, pyIsSpace ch = false)
    (hk3 : '=' ∉ k) (hk4 : '*' ∉ k) (hp : '=' ∉ p) :
    processLine (c, temp) (k ++ ' ' :: '=' :: ' ' :: p) =
      processParsed c temp k
        (pyStrip (beforeStar (if stripRight p = [] then [] else ' ' :: stripRight p))) := by
  have hl := pyStrip_assign_line k p hk1 hk2
  set w : PyStr := if stripRight p = [] then [] else ' ' :: stripRight p with hwdef
  have hwEq : '=' ∉ w := by
    rw [hwdef]
    split
    · simp
    · intro hmem
      rcases List.mem_cons.mp hmem with h | h
      · exact absurd h (by decide)
      · exact hp (mem_stripRight h)
  have hbs : beforeStar (k ++ ' ' :: '=' :: w) = k ++ ' ' :: '=' :: beforeStar w := by
    have hsp : (k ++ ' ' :: '=' :: w) = (k ++ [' ', '=']) ++ w := by simp
    unfold beforeStar
    rw [hsp, takeWhile_append_of_all]
    · simp
    · intro ch hch
      rcases List.mem_append.mp hch with h | h
      · simp only [decide_eq_true_eq]
        intro hc
        exact hk4 (hc ▸ h)
      · rcases List.mem_cons.mp h with h | h
        · subst h; decide
        · simp at h; subst h; decide
  have hne : (k ++ ' ' :: '=' :: beforeStar w) ≠ [] := by simp [hk1]
  have hmem : '=' ∈ (k ++ ' ' :: '=' :: beforeStar w) := by simp
  have hnk : '=' ∉ (k ++ [' '] : PyStr) := by
    intro h
    rcases List.mem_append.mp h with h | h
    · exact hk3 h
    · simp at h
  have hnbw : '=' ∉ beforeStar w := fun h => hwEq (mem_beforeStar h)
  have hsplit : splitChar '=' (k ++ ' ' :: '=' :: beforeStar w) =
      [k ++ [' '], beforeStar w] := by
    have hsp : (k ++ ' ' :: '=' :: beforeStar w) = (k ++ [' ']) ++ '=' :: beforeStar w := by
      simp
    rw [hsp, splitChar_append _ hnk, splitChar_of_not_mem hnbw]
  simp only [processLine]
  rw [hl, hbs, if_neg hne, if_neg (not_not_intro hmem), hsplit]
  show processParsed c temp (pyStrip (k ++ [' '])) (pyStrip (beforeStar w)) = _
  rw [pyStrip_append_space hk1 hk2]

/-! ### Joining and re-splitting space-separated pieces -/

theorem joinChar_ne_nil {p : PyStr} (ps : List PyStr) (hp : p ≠ []) :
    joinChar ' ' (p :: ps) ≠ [] := by
  cases ps with
  | nil => simpa [joinChar] using hp
  | cons q qs => simp [joinChar]

theorem mem_joinChar {c sep : Char} :
    ∀ {ps : List PyStr}, c ∈ joinChar sep ps → c = sep ∨ ∃ p ∈ ps, c ∈ p := by
  intro ps
  induction ps with
  | nil => intro h; simp [joinChar] at h
  | cons p ps ih =>
    cases ps with
    | nil =>
      intro h
      right
      exact ⟨p, by simp, by simpa [joinChar] using h⟩
    | cons q qs =>
      intro h
      rw [show joinChar sep (p :: q :: qs) = p ++ sep :: joinChar sep (q :: qs) from rfl] at h
      rcases List.mem_append.mp h with h | h
      · right; exact ⟨p, by simp, h⟩
      · rcases List.mem_cons.mp h with h | h
        · left; exact h
        · rcases ih h with h | ⟨r, hr, hcr⟩
          · left; exact h
          · right; exact ⟨r, by simp [hr], hcr⟩

theorem pyStrip_joinChar (ps : List PyStr)
    (h : ∀ p ∈ ps, p ≠ [] ∧ ∀ c ∈ p, pyIsSpace c = false) :
    pyStrip (joinChar ' ' ps) = joinChar ' ' ps := by
  induction ps with
  | nil => rfl
  | cons p ps ih =>
    cases ps with
    | nil =>
      exact pyStrip_of_no_space
        (fun c hc => (h p (by simp)).2 c (by simpa [joinChar] using hc))
    | cons q qs =>
      have hp := h p (by simp)
      have ihJ : pyStrip (joinChar ' ' (q :: qs)) = joinChar ' ' (q :: qs) :=
        ih (fun r hr => h r (by simp [hr]))
      have hJne : joinChar ' ' (q :: qs) ≠ [] := joinChar_ne_nil qs (h q (by simp)).1
      have hJrev : (joinChar ' ' (q :: qs)).reverse.dropWhile pyIsSpace =
          (joinChar ' ' (q :: qs)).reverse := (strip_id_parts ihJ).2
      show pyStrip (p ++ ' ' :: joinChar ' ' (q :: qs)) = _
      unfold pyStrip
      rw [dropWhile_append_of_ne_nil _ (by rw [dropWhile_eq_self_of _ _ hp.2]; exact hp.1),
        dropWhile_eq_self_of _ _ hp.2, List.reverse_append]
      have hrev : (' ' :: joinChar ' ' (q :: qs)).reverse
          = (joinChar ' ' (q :: qs)).reverse ++ [' '] := by simp
      rw [hrev, List.append_assoc,
        dropWhile_append_of_ne_nil _ (by rw [hJrev]; simpa using hJne), hJrev]
      simp
      rfl

theorem splitChar_joinChar {c : Char} :
    ∀ (ps : List PyStr), ps ≠ [] → (∀ p ∈ ps, c ∉ p) →
      splitChar c (joinChar c ps) = ps
  | [], h, _ => absurd rfl h
  | [p], _, h => by simpa [joinChar] using splitChar_of_not_mem (h p (by simp))
  | p :: q :: qs, _, h => by
    show splitChar c (p ++ c :: joinChar c (q :: qs)) = _
    rw [splitChar_append _ (h p (by simp)),
      splitChar_joinChar (q :: qs) (by simp) (fun r hr => h r (by simp [hr]))]

/-! ### The site-class list and value inference on rendered values -/

theorem renderInt_not_space {n : Int} {c : Char} (h : c ∈ renderInt n) : c ≠ ' ' := by
  intro hc
  subst hc
  have := (renderInt_chars n ' ' h).1
  simp [pyIsSpace] at this

theorem parseSiteClasses_map_renderInt (ns : List Int) :
    parseSiteClasses (ns.map renderInt) = .ok ns := by
  induction ns with
  | nil => rfl
  | cons n ns ih => simp [parseSiteClasses, pyInt_renderInt, ih]

theorem inferValue_renderInt (n : Int) : inferValue (renderInt n) = .vInt n := by
  unfold inferValue
  rw [if_neg (fun h => (renderInt_chars n '.' h).2.2.2.2 rfl), pyInt_renderInt]

theorem inferValue_cleanStr {s : PyStr} (h : cleanStr s = true) : inferValue s = .vStr s := by
  simp only [cleanStr, Bool.and_eq_true, decide_eq_true_eq] at h
  unfold inferValue
  by_cases hd : '.' ∈ s
  · rw [if_pos hd]
    rw [if_pos hd] at h
    rw [decide_eq_true_eq] at h
    rw [h.2]
  · rw [if_neg hd]
    rw [if_neg hd] at h
    rw [decide_eq_true_eq] at h
    rw [h.2]

/-! ### Processing the specific line shapes the writer emits -/

theorem optionKeys_facts : ∀ k ∈ optionKeys,
    k ≠ [] ∧ (∀ c ∈ k, pyIsSpace c = false) ∧ '=' ∉ k ∧ '*' ∉ k ∧
      k ≠ K "seqfile" ∧ k ≠ K "treefile" ∧ k ≠ K "outfile" := by decide

/-- The trimmed value a writer-built line hands to the dispatch, for a
clean (stripped, star-free) value text, is the value text itself. -/
theorem assign_value_clean {rv : PyStr} (h1 : pyStrip rv = rv) (h2 : '*' ∉ rv) :
    pyStrip (beforeStar (if stripRight rv = [] then [] else ' ' :: stripRight rv)) = rv := by
  rw [stripRight_eq_self h1]
  by_cases hrv : rv = []
  · subst hrv; rw [if_pos rfl]; rfl
  · rw [if_neg hrv]
    show pyStrip ((' ' :: rv).takeWhile (fun ch => ch ≠ '*')) = rv
    rw [List.takeWhile_cons, if_pos (by decide)]
    rw [show rv.takeWhile (fun ch => ch ≠ '*') = beforeStar rv from rfl,
      beforeStar_of_not_mem h2, pyStrip_cons_space, h1]

theorem processParsed_store (c : Codeml) (temp : Temp) (k rv : PyStr)
    (hks : k ≠ K "seqfile") (hkt : k ≠ K "treefile") (hko : k ≠ K "outfile")
    (hns : k ≠ K "NSsites") (hmem : k ∈ c._options.map Prod.fst) :
    processParsed c temp k rv = .ok (c, tempSet temp k (inferValue rv)) := by
  unfold processParsed
  rw [if_neg hks, if_neg hkt, if_neg hko, if_neg hns, if_pos hmem]

/-- Processing a writer-built option line for a clean entry stores
exactly the original value in `temp_options` and changes nothing
else. -/
theorem processLine_option (c : Codeml) (temp : Temp) (k : PyStr) (v : Value)
    (hk : k ∈ optionKeys) (hcl : cleanEntry (k, some v) = true)
    (hopts : c._options.map Prod.fst = optionKeys) :
    processLine (c, temp) (ctlOptionLine k v) = .ok (c, tempSet temp k v) := by
  obtain ⟨hk1, hk2, hk3, hk4, hks, hkt, hko⟩ := optionKeys_facts k hk
  by_cases hns : k = K "NSsites"
  · subst hns
    match v with
    | .vInt n => simp [cleanEntry] at hcl
    | .vFloat q => simp [cleanEntry] at hcl
    | .vStr s => simp [cleanEntry] at hcl
    | .vList ns =>
      have hne : ns ≠ [] := by
        simp only [cleanEntry, Bool.and_eq_true, decide_eq_true_eq] at hcl
        exact hcl.2
      have hmapne : ns.map renderInt ≠ [] := by simpa using hne
      have hpieces : ∀ p ∈ ns.map renderInt, p ≠ [] ∧ ∀ c ∈ p, pyIsSpace c = false := by
        intro p hp
        rcases List.mem_map.mp hp with ⟨n, _, rfl⟩
        exact ⟨renderInt_ne_nil n, fun c hc => (renderInt_chars n c hc).1⟩
      set X := joinChar ' ' (ns.map renderInt) with hX
      have hXstrip : pyStrip X = X := pyStrip_joinChar _ hpieces
      have hXeq : '=' ∉ X := by
        intro hmem
        rcases mem_joinChar hmem with h | ⟨p, hp, hcp⟩
        · exact absurd h (by decide)
        · rcases List.mem_map.mp hp with ⟨n, _, rfl⟩
          exact (renderInt_chars n '=' hcp).2.1 rfl
      have hXstar : '*' ∉ X := by
        intro hmem
        rcases mem_joinChar hmem with h | ⟨p, hp, hcp⟩
        · exact absurd h (by decide)
        · rcases List.mem_map.mp hp with ⟨n, _, rfl⟩
          exact (renderInt_chars n '*' hcp).2.2.1 rfl
      show processLine (c, temp) (K "NSsites" ++ ' ' :: '=' :: ' ' :: X) = _
      rw [processLine_assign c temp _ X hk1 hk2 hk3 hk4 hXeq,
        assign_value_clean hXstrip hXstar]
      unfold processParsed
      rw [if_neg hks, if_neg hkt, if_neg hko, if_pos rfl, hX,
        splitChar_joinChar (ns.map renderInt) hmapne
          (fun p hp hc => by
            rcases List.mem_map.mp hp with ⟨n, _, rfl⟩
            exact renderInt_not_space hc rfl),
        parseSiteClasses_map_renderInt]
  · have hmem : k ∈ c._options.map Prod.fst := hopts ▸ hk
    match v with
    | .vList ns => simp [cleanEntry, hns] at hcl
    | .vFloat q => simp [cleanEntry] at hcl
    | .vInt n =>
      have hrv := renderInt_chars n
      have hline : ctlOptionLine k (Value.vInt n) = k ++ ' ' :: '=' :: ' ' :: renderInt n := by
        unfold ctlOptionLine
        rw [if_neg hns]
        rfl
      rw [hline, processLine_assign c temp k _ hk1 hk2 hk3 hk4 (fun h => (hrv '=' h).2.1 rfl),
        assign_value_clean (pyStrip_renderInt n) (fun h => (hrv '*' h).2.2.1 rfl),
        processParsed_store c temp k _ hks hkt hko hns hmem, inferValue_renderInt]
    | .vStr s =>
      have hcs : cleanStr s = true := by
        simp only [cleanEntry, Bool.and_eq_true, decide_eq_true_eq] at hcl
        exact hcl.2
      have hcs' := hcs
      simp only [cleanStr, Bool.and_eq_true, decide_eq_true_eq] at hcs'
      have hline : ctlOptionLine k (Value.vStr s) = k ++ ' ' :: '=' :: ' ' :: s := by
        unfold ctlOptionLine
        rw [if_neg hns]
        rfl
      rw [hline, processLine_assign c temp k _ hk1 hk2 hk3 hk4 hcs'.1.1.1.2,
        assign_value_clean hcs'.1.1.1.1 hcs'.1.1.2,
        processParsed_store c temp k _ hks hkt hko hns hmem, inferValue_cleanStr hcs]

theorem processLine_seqfile (c : Codeml) (temp : Temp) (p : PyStr) (hp : '=' ∉ p) :
    ∃ val, processLine (c, temp) (K "seqfile = " ++ p) =
      .ok ({ c with alignment := some val }, temp) := by
  have hshape : K "seqfile = " ++ p = K "seqfile" ++ ' ' :: '=' :: ' ' :: p := rfl
  rw [hshape, processLine_assign c temp _ p (by decide) (by decide) (by decide) (by decide) hp]
  exact ⟨_, by unfold processParsed; rw [if_pos rfl]⟩

theorem processLine_outfile (c : Codeml) (temp : Temp) (p : PyStr) (hp : '=' ∉ p) :
    ∃ val, processLine (c, temp) (K "outfile = " ++ p) =
      .ok ({ c with out_file := some val }, temp) := by
  have hshape : K "outfile = " ++ p = K "outfile" ++ ' ' :: '=' :: ' ' :: p := rfl
  rw [hshape, processLine_assign c temp _ p (by decide) (by decide) (by decide) (by decide) hp]
  exact ⟨_, by unfold processParsed; rw [if_neg (by decide), if_neg (by decide), if_pos rfl]⟩

theorem processLine_treefile (c : Codeml) (temp : Temp) (p : PyStr) (hp : '=' ∉ p) :
    ∃ val, processLine (c, temp) (K "treefile = " ++ p) =
      .ok ({ c with tree := some val }, temp) := by
  have hshape : K "treefile = " ++ p = K "treefile" ++ ' ' :: '=' :: ' ' :: p := rfl
  rw [hshape, processLine_assign c temp _ p (by decide) (by decide) (by decide) (by decide) hp]
  exact ⟨_, by unfold processParsed; rw [if_neg (by decide), if_pos rfl]⟩

theorem processLine_empty_line (st : Codeml × Temp) : processLine st [] = .ok st := rfl

/-! ### The line loop: state invariants -/

theorem runLines_cons (st : Codeml × Temp) (l : PyStr) (ls : List PyStr) :
    runLines st (l :: ls) =
      match processLine st l with
      | .error e => .error e
      | .ok st' => runLines st' ls := rfl

theorem processLine_ok_options {st st2 : Codeml × Temp} {raw : PyStr}
    (h : processLine st raw = .ok st2) : st2.1._options = st.1._options := by
  simp only [processLine, processParsed] at h
  repeat' split at h
  all_goals (cases h; try rfl)

theorem processLine_error_options {st : Codeml × Temp} {raw : PyStr} {e2 : CtlErr × Codeml}
    (h : processLine st raw = .error e2) : e2.2._options = st.1._options := by
  simp only [processLine, processParsed] at h
  repeat' split at h
  all_goals (cases h; try rfl)

theorem runLines_ok_options {ls : List PyStr} :
    ∀ {st st2 : Codeml × Temp},
      runLines st ls = .ok st2 → st2.1._options = st.1._options := by
  induction ls with
  | nil =>
    intro st st2 h
    cases h
    rfl
  | cons l ls ih =>
    intro st st2 h
    rw [runLines_cons] at h
    cases hp : processLine st l with
    | error e => rw [hp] at h; cases h
    | ok st' =>
      rw [hp] at h
      rw [ih h, processLine_ok_options hp]

theorem runLines_error_options {ls : List PyStr} :
    ∀ {st : Codeml × Temp} {e2 : CtlErr × Codeml},
      runLines st ls = .error e2 → e2.2._options = st.1._options := by
  induction ls with
  | nil => intro st e2 h; cases h
  | cons l ls ih =>
    intro st e2 h
    rw [runLines_cons] at h
    cases hp : processLine st l with
    | error e =>
      rw [hp] at h
      cases h
      exact processLine_error_options hp
    | ok st' =>
      rw [hp] at h
      rw [ih h, processLine_ok_options hp]

theorem runLines_append (st : Codeml × Temp) (ls1 ls2 : List PyStr) :
    runLines st (ls1 ++ ls2) =
      match runLines st ls1 with
      | .error e => .error e
      | .ok st' => runLines st' ls2 := by
  induction ls1 generalizing st with
  | nil => rfl
  | cons l ls ih =>
    rw [List.cons_append, runLines_cons, runLines_cons]
    cases h : processLine st l with
    | error e => rfl
    | ok st' => exact ih st'

/-! ### The dict lookup and the canonical iteration order -/

theorem optLookup_eq_of_mem {opts : List (PyStr × Option Value)}
    (hnd : (opts.map Prod.fst).Nodup) {k : PyStr} {v : Option Value}
    (h : (k, v) ∈ opts) : optLookup opts k = some v := by
  induction opts with
  | nil => simp at h
  | cons p ps ih =>
    rw [List.map_cons, List.nodup_cons] at hnd
    rcases List.mem_cons.mp h with h | h
    · rw [← h]
      unfold optLookup
      simp
    · have hne : p.1 ≠ k := by
        intro he
        exact hnd.1 (he ▸ List.mem_map_of_mem Prod.fst h)
      unfold optLookup
      rw [if_neg hne]
      exact ih hnd.2 h

theorem mem_of_optLookup {opts : List (PyStr × Option Value)} {k : PyStr} {v : Option Value}
    (h : optLookup opts k = some v) : (k, v) ∈ opts := by
  induction opts with
  | nil => cases h
  | cons p ps ih =>
    cases p with
    | mk a b =>
      unfold optLookup at h
      split at h
      · rename_i heq
        injection h with h'
        rw [← heq, ← h']
        exact List.mem_cons_self _ _
      · exact List.mem_cons_of_mem _ (ih h)

theorem optionKeys_nodup : optionKeys.Nodup := by decide

set_option maxRecDepth 100000 in
set_option maxHeartbeats 1000000 in
theorem dictOrderKeys_facts :
    dictOrderKeys.Nodup ∧ (∀ k ∈ dictOrderKeys, k ∈ optionKeys) ∧
      (∀ k ∈ optionKeys, k ∈ dictOrderKeys) := by decide

/-! ### Reading back the written option lines -/

theorem runLines_option_lines (opts : List (PyStr × Option Value)) :
    ∀ (ks : List PyStr), (∀ k ∈ ks, k ∈ optionKeys) → ks.Nodup →
      (∀ k v, optLookup opts k = some (some v) → cleanEntry (k, some v) = true) →
      ∀ (c : Codeml) (t : Temp), c._options.map Prod.fst = optionKeys →
      ∃ t', runLines (c, t)
          (ks.filterMap (fun k =>
            match optLookup opts k with
            | some (some v) => some (ctlOptionLine k v)
            | _ => none)) = .ok (c, t') ∧
        (∀ x ∈ ks, t' x =
          match optLookup opts x with
          | some (some v) => some v
          | _ => t x) ∧
        (∀ x, x ∉ ks → t' x = t x) := by
  intro ks
  induction ks with
  | nil =>
    intro _ _ _ c t _
    exact ⟨t, rfl, by simp, fun _ _ => rfl⟩
  | cons k ks ih =>
    intro hsub hnd hclean c t hc
    have hk := hsub k (by simp)
    rw [List.nodup_cons] at hnd
    match hx : optLookup opts k with
    | some (some v) =>
      have hline := processLine_option c t k v hk (hclean k v hx) hc
      obtain ⟨t', hrun, hin, hout⟩ :=
        ih (fun x hxk => hsub x (by simp [hxk])) hnd.2 hclean c (tempSet t k v) hc
      refine ⟨t', ?_, ?_, ?_⟩
      · rw [List.filterMap_cons, hx]
        unfold runLines
        rw [hline]
        exact hrun
      · intro x hxm
        rcases List.mem_cons.mp hxm with rfl | hxm
        · rw [hout x hnd.1, hx]
          unfold tempSet
          simp
        · rw [hin x hxm]
          have hxk : x ≠ k := fun he => hnd.1 (he ▸ hxm)
          unfold tempSet
          rw [if_neg hxk]
      · intro x hxm
        rw [hout x (fun hm => hxm (by simp [hm]))]
        unfold tempSet
        rw [if_neg (fun he => hxm (by simp [he]))]
    | some none =>
      obtain ⟨t', hrun, hin, hout⟩ :=
        ih (fun x hxk => hsub x (by simp [hxk])) hnd.2 hclean c t hc
      refine ⟨t', ?_, ?_, ?_⟩
      · rw [List.filterMap_cons, hx]
        exact hrun
      · intro x hxm
        rcases List.mem_cons.mp hxm with rfl | hxm
        · rw [hout x hnd.1, hx]
        · exact hin x hxm
      · intro x hxm
        exact hout x (fun hm => hxm (by simp [hm]))
    | none =>
      obtain ⟨t', hrun, hin, hout⟩ :=
        ih (fun x hxk => hsub x (by simp [hxk])) hnd.2 hclean c t hc
      refine ⟨t', ?_, ?_, ?_⟩
      · rw [List.filterMap_cons, hx]
        exact hrun
      · intro x hxm
        rcases List.mem_cons.mp hxm with rfl | hxm
        · rw [hout x hnd.1, hx]
        · exact hin x hxm
      · intro x hxm
        exact hout x (fun hm => hxm (by simp [hm]))

theorem splitChar_joinLines (ls : List PyStr) (h : ∀ l ∈ ls, '\n' ∉ l) :
    splitChar '\n' (joinLines ls) = ls ++ [[]] := by
  induction ls with
  | nil => rfl
  | cons l ls ih =>
    show splitChar '\n' (l ++ '\n' :: joinLines ls) = _
    rw [splitChar_append _ (h l (by simp)), ih (fun x hx => h x (by simp [hx]))]
    rfl

/-! ### The round-trip assembly -/

theorem ctlOptionLine_no_newline {k : PyStr} {v : Value} (hk : k ∈ optionKeys)
    (hcl : cleanEntry (k, some v) = true) : '\n' ∉ ctlOptionLine k v := by
  obtain ⟨_, hk2, _, _, _, _, _⟩ := optionKeys_facts k hk
  have hknl : '\n' ∉ k := fun hm => by simpa [pyIsSpace] using hk2 '\n' hm
  have hval : ∀ s, (match v with
      | .vInt n => s = renderInt n
      | .vStr str => s = str
      | .vList ns => s = joinChar ' ' (ns.map renderInt)
      | .vFloat _ => False) → '\n' ∉ s := by
    intro s hs hmem
    match v with
    | .vInt n => exact (renderInt_chars n '\n' (hs ▸ hmem)).2.2.2.1 rfl
    | .vFloat q => exact hs
    | .vStr str =>
      have : cleanStr str = true := by
        simp only [cleanEntry, Bool.and_eq_true] at hcl
        exact hcl.2
      simp only [cleanStr, Bool.and_eq_true, decide_eq_true_eq] at this
      exact this.1.2 (hs ▸ hmem)
    | .vList ns =>
      rcases mem_joinChar (hs ▸ hmem) with h | ⟨p, hp, hcp⟩
      · exact absurd h (by decide)
      · rcases List.mem_map.mp hp with ⟨n, _, rfl⟩
        exact (renderInt_chars n '\n' hcp).2.2.2.1 rfl
  intro hmem
  unfold ctlOptionLine at hmem
  split at hmem
  · rename_i hns
    rcases List.mem_append.mp hmem with h | h
    · exact hknl h
    · rcases List.mem_cons.mp h with h | h
      · exact absurd h (by decide)
      · rcases List.mem_cons.mp h with h | h
        · exact absurd h (by decide)
        · rcases List.mem_cons.mp h with h | h
          · exact absurd h (by decide)
          · subst hns
            match v, hcl with
            | .vList ns, _ => exact hval _ rfl h
            | .vInt n, hcl => simp [cleanEntry] at hcl
            | .vFloat q, hcl => simp [cleanEntry] at hcl
            | .vStr s, hcl => simp [cleanEntry] at hcl
  · rename_i hns
    rcases List.mem_append.mp hmem with h | h
    · exact hknl h
    · rcases List.mem_cons.mp h with h | h
      · exact absurd h (by decide)
      · rcases List.mem_cons.mp h with h | h
        · exact absurd h (by decide)
        · rcases List.mem_cons.mp h with h | h
          · exact absurd h (by decide)
          · match v, hcl with
            | .vInt n, _ => exact hval _ rfl h
            | .vStr s, _ => exact hval _ rfl h
            | .vFloat q, hcl => simp [cleanEntry] at hcl
            | .vList ns, hcl =>
              simp only [cleanEntry, Bool.and_eq_true, decide_eq_true_eq] at hcl
              exact absurd hcl.1 hns

theorem write_lines_no_newline {a o t : PyStr} {opts : List (PyStr × Option Value)}
    (hv : ValidOpts opts) (hcl : CleanOpts opts)
    (ha : '\n' ∉ a) (ho : '\n' ∉ o) (ht : '\n' ∉ t) :
    ∀ l ∈ write_ctl_lines a o t opts, '\n' ∉ l := by
  intro l hl
  unfold write_ctl_lines at hl
  rcases List.mem_cons.mp hl with rfl | hl
  · intro hm
    rcases List.mem_append.mp hm with h | h
    · exact absurd h (by decide)
    · exact ha h
  rcases List.mem_cons.mp hl with rfl | hl
  · intro hm
    rcases List.mem_append.mp hm with h | h
    · exact absurd h (by decide)
    · exact ho h
  rcases List.mem_cons.mp hl with rfl | hl
  · intro hm
    rcases List.mem_append.mp hm with h | h
    · exact absurd h (by decide)
    · exact ht h
  · rcases List.mem_filterMap.mp hl with ⟨k, hk, hfk⟩
    rw [hv] at hk
    split at hfk
    · rename_i v hx
      injection hfk with hfk
      have hme := mem_of_optLookup hx
      exact hfk ▸ ctlOptionLine_no_newline (dictOrderKeys_facts.2.1 k hk) (hcl _ hme)
    · cases hfk

/-- Reading back a control file just written from a valid, clean state
restores `_options` exactly (the path fields are re-assigned from the
file as a side channel). -/
theorem read_write_options_roundtrip (c : Codeml) (a o t : PyStr)
    (hv : ValidOpts c._options) (hcl : CleanOpts c._options)
    (ha : PathOk a) (ho : PathOk o) (ht : PathOk t) :
    ∃ c₂ : Codeml, read_ctl_file c (write_ctl_file a o t c) = .ok c₂ ∧
      c₂._options = c._options := by
  obtain ⟨v1, h1⟩ := processLine_seqfile c emptyTemp a ha.1
  obtain ⟨v2, h2⟩ := processLine_outfile { c with alignment := some v1 } emptyTemp o ho.1
  obtain ⟨v3, h3⟩ := processLine_treefile
    { c with alignment := some v1, out_file := some v2 } emptyTemp t ht.1
  set c3 : Codeml := { c with alignment := some v1, out_file := some v2, tree := some v3 }
    with hc3
  have hc3opts : c3._options = c._options := rfl
  have hclean : ∀ k v, optLookup c._options k = some (some v) →
      cleanEntry (k, some v) = true :=
    fun k v hx => hcl _ (mem_of_optLookup hx)
  obtain ⟨hnd, hsub, hsup⟩ := dictOrderKeys_facts
  obtain ⟨t', hrun, hin, _⟩ := runLines_option_lines c._options dictOrderKeys hsub hnd
    hclean c3 emptyTemp (by rw [hc3opts, hv])
  have hlines : splitChar '\n' (write_ctl_file a o t c) =
      write_ctl_lines a o t c._options ++ [[]] :=
    splitChar_joinLines _ (write_lines_no_newline hv hcl ha.2 ho.2 ht.2)
  have hordw : dictIterKeys (c._options.map Prod.fst) = dictOrderKeys := by
    rw [hv]; rfl
  have hrunall : runLines (c, emptyTemp) (write_ctl_lines a o t c._options ++ [[]]) =
      .ok (c3, t') := by
    unfold write_ctl_lines
    rw [hordw]
    simp only [List.cons_append, runLines_cons, h1, h2, h3]
    rw [runLines_append, hrun]
    rfl
  refine ⟨{ c3 with _options := c3._options.map (fun p => (p.1, t' p.1)) }, ?_, ?_⟩
  · unfold read_ctl_file read_ctl_lines
    rw [hlines, hrunall]
  · show c3._options.map (fun p => (p.1, t' p.1)) = c._options
    rw [hc3opts]
    have hmap : ∀ p ∈ c._options, (fun p : PyStr × Option Value => (p.1, t' p.1)) p = id p := by
      intro p hp
      have hpk : p.1 ∈ optionKeys := hv ▸ List.mem_map_of_mem Prod.fst hp
      have hlook : optLookup c._options p.1 = some p.2 :=
        optLookup_eq_of_mem (hv ▸ optionKeys_nodup) (by rwa [show (p.1, p.2) = p from rfl])
      have ht' := hin p.1 (hsup p.1 hpk)
      rw [hlook] at ht'
      show (p.1, t' p.1) = p
      match p, hp, ht' with
      | (k, some v), _, ht' => rw [ht']
      | (k, none), _, ht' => rw [ht']; rfl
    rw [List.map_congr_left hmap, List.map_id]

/-! ### Further helper lemmas for the claim theorems -/

theorem optLookup_map_replace (opts : List (PyStr × Option Value)) (f : Temp) (k : PyStr) :
    optLookup (opts.map (fun p => (p.1, f p.1))) k =
      (optLookup opts k).map (fun _ => f k) := by
  induction opts with
  | nil => rfl
  | cons p ps ih =>
    rw [List.map_cons]
    unfold optLookup
    by_cases h : p.1 = k
    · rw [if_pos h, if_pos h, h]
      rfl
    · rw [if_neg h, if_neg h]
      exact ih

theorem parseSiteClasses_of_mapM {ts : List PyStr} {ns : List Int}
    (h : ts.mapM pyInt = some ns) : parseSiteClasses ts = .ok ns := by
  induction ts generalizing ns with
  | nil =>
    simp only [List.mapM_nil] at h
    injection h with h
    rw [← h]
    rfl
  | cons t ts ih =>
    rw [List.mapM_cons] at h
    cases hpt : pyInt t with
    | none => rw [hpt] at h; cases h
    | some n =>
      rw [hpt] at h
      cases hrest : ts.mapM pyInt with
      | none => rw [hrest] at h; cases h
      | some ms =>
        rw [hrest] at h
        injection h with h
        unfold parseSiteClasses
        rw [hpt, ih hrest, ← h]

theorem parseSiteClasses_first_bad : ∀ (xs : List PyStr) (tok : PyStr) (ys : List PyStr),
    (∀ x ∈ xs, (pyInt x).isSome = true) → pyInt tok = none →
    parseSiteClasses (xs ++ tok :: ys) = .error tok := by
  intro xs
  induction xs with
  | nil =>
    intro tok ys _ htok
    show parseSiteClasses (tok :: ys) = _
    unfold parseSiteClasses
    rw [htok]
  | cons x xs ih =>
    intro tok ys hall htok
    have hx := hall x (by simp)
    cases hpx : pyInt x with
    | none => rw [hpx] at hx; cases hx
    | some n =>
      show parseSiteClasses (x :: (xs ++ tok :: ys)) = _
      unfold parseSiteClasses
      rw [hpx, ih tok ys (fun y hy => hall y (by simp [hy])) htok]

theorem lineKey_ctlOptionLine {k : PyStr} (v : Value) (hk : k ∈ optionKeys) :
    lineKey (ctlOptionLine k v) = k := by
  obtain ⟨hk1, hk2, hk3, _, _, _, _⟩ := optionKeys_facts k hk
  have hshape : ∃ X, ctlOptionLine k v = k ++ ' ' :: '=' :: ' ' :: X := by
    unfold ctlOptionLine
    split
    · exact ⟨_, rfl⟩
    · exact ⟨_, rfl⟩
  obtain ⟨X, hX⟩ := hshape
  rw [hX]
  unfold lineKey
  rw [show (k ++ ' ' :: '=' :: ' ' :: X) = (k ++ [' ']) ++ '=' :: ' ' :: X by simp,
    takeWhile_append_of_all]
  · rw [List.takeWhile_cons, if_neg (by simp)]
    rw [List.append_nil, pyStrip_append_space hk1 hk2]
  · intro ch hch
    rcases List.mem_append.mp hch with h | h
    · simp only [decide_eq_true_eq]
      intro hc
      exact hk3 (hc ▸ h)
    · simp at h
      subst h
      decide

theorem filterMap_lines_keys (opts : List (PyStr × Option Value)) :
    ∀ (ks : List PyStr), (∀ k ∈ ks, k ∈ optionKeys) →
    (ks.filterMap (fun k =>
        match optLookup opts k with
        | some (some v) => some (ctlOptionLine k v)
        | _ => none)).map lineKey =
      ks.filter (fun k => isSet (optLookup opts k)) := by
  intro ks
  induction ks with
  | nil => intro _; rfl
  | cons k ks ih =>
    intro hsub
    rw [List.filterMap_cons, List.filter_cons]
    cases hx : optLookup opts k with
    | none =>
      rw [show isSet none = false from rfl, if_neg (by simp)]
      exact ih (fun x hx => hsub x (by simp [hx]))
    | some w =>
      cases w with
      | none =>
        rw [show isSet (some none) = false from rfl, if_neg (by simp)]
        exact ih (fun x hx => hsub x (by simp [hx]))
      | some v =>
        rw [show isSet (some (some v)) = true from rfl, if_pos (by simp)]
        rw [List.map_cons, lineKey_ctlOptionLine v (hsub k (by simp)),
          ih (fun x hx => hsub x (by simp [hx]))]

theorem dropWhile_nil_of_all {p : Char → Bool} {s : PyStr}
    (h : ∀ c ∈ s, p c = true) : s.dropWhile p = [] := by
  induction s with
  | nil => rfl
  | cons x xs ih =>
    rw [List.dropWhile_cons, if_pos (h x (by simp))]
    exact ih (fun c hc => h c (by simp [hc]))

/-! ## Claim theorems -/

/-- C1 (counterexample): the round-trip claim as stated is false.  At
the constructor-default state, `Small_Diff` holds the non-absent float
`0.5e-6`; writing renders it as `5e-07` (no decimal point), and reading
that line back stores the *string* `"5e-07"`, so the model is not equal
to the original on a key whose original value was not absent. -/
theorem C1_roundtrip_counterexample :
    optLookup (codemlInit none none none)._options (K "Small_Diff") =
      some (some (.vFloat ⟨1, 2000000⟩)) ∧
    (read_ctl_file (codemlInit none none none)
        (write_ctl_file (K "a.phy") (K "o.txt") (K "t.nwk") (codemlInit none none none))).map
      (fun c => optLookup c._options (K "Small_Diff")) =
      .ok (some (some (.vStr (K "5e-07")))) ∧
    Value.vStr (K "5e-07") ≠ Value.vFloat ⟨1, 2000000⟩ := by
  refine ⟨by decide, by decide, by decide⟩

/-- C1 (amended): the round-trip does hold for every state over the
canonical key set whose non-absent values are ints, nonempty int lists
(for `NSsites`), or codec-safe strings (stripped, free of `=`, `*` and
newline, and not re-parsed as a number), and for path strings free of
`=` and newline: reading the written file succeeds and yields an option
model equal to the original on every key — non-absent values are
restored exactly and absent keys remain absent.  Float values are
excluded (see the counterexample), as are strings the codec cannot
represent. -/
theorem C1_roundtrip_amended (c : Codeml) (a o t : PyStr)
    (hv : ValidOpts c._options) (hcl : CleanOpts c._options)
    (ha : PathOk a) (ho : PathOk o) (ht : PathOk t) :
    ∃ c₂ : Codeml, read_ctl_file c (write_ctl_file a o t c) = .ok c₂ ∧
      ∀ k, optLookup c₂._options k = optLookup c._options k := by
  obtain ⟨c₂, hread, hopts⟩ := read_write_options_roundtrip c a o t hv hcl ha ho ht
  exact ⟨c₂, hread, fun k => by rw [hopts]⟩

/-- C1 (witness): the amended round-trip at a concrete state. -/
theorem C1_roundtrip_witness :
    ∃ c₂ : Codeml, read_ctl_file cleanExample
        (write_ctl_file (K "aln.phy") (K "out.txt") (K "tree.nwk") cleanExample) = .ok c₂ ∧
      ∀ k, optLookup c₂._options k = optLookup cleanExample._options k :=
  C1_roundtrip_amended cleanExample (K "aln.phy") (K "out.txt") (K "tree.nwk")
    (by decide) (by decide) (by decide) (by decide) (by decide)

/-- C2 (counterexample): the claim that a failed `read_ctl_file` leaves
the instance's state unchanged is false: a `seqfile` line processed
before the failing line has already overwritten the `alignment` path
field when the `KeyError` is raised. -/
theorem C2_no_mutation_counterexample :
    read_ctl_file (codemlInit (some (K "old.phy")) none none)
        (K "seqfile = new.phy\nbogus = 1\n") =
      .error (.invalidOption (K "bogus"),
        { codemlInit (some (K "old.phy")) none none with alignment := some (K "new.phy") }) ∧
    ({ codemlInit (some (K "old.phy")) none none with alignment := some (K "new.phy") } ≠
      codemlInit (some (K "old.phy")) none none) := by
  refine ⟨by decide, by decide⟩

/-- C2 (amended): on every failed `read_ctl_file` call the *option
model* is unchanged — `temp_options` is local and the final replacement
only runs on success — but the three path fields may retain assignments
from lines processed before the error (they are written directly to the
instance during the loop). -/
theorem C2_error_leaves_options (c : Codeml) (contents : PyStr) (e : CtlErr) (c' : Codeml)
    (h : read_ctl_file c contents = .error (e, c')) : c'._options = c._options := by
  unfold read_ctl_file read_ctl_lines at h
  cases hr : runLines (c, emptyTemp) (splitChar '\n' contents) with
  | error e2 =>
    rw [hr] at h
    injection h with h2
    subst h2
    simpa using runLines_error_options hr
  | ok st2 =>
    rw [hr] at h
    cases h

/-- C2 (witness): the amended statement at the counterexample's input:
the error state has a new `alignment` but its `_options` equal the
original's. -/
theorem C2_error_leaves_options_witness :
    ({ codemlInit (some (K "old.phy")) none none with
        alignment := some (K "new.phy") } : Codeml)._options =
      (codemlInit (some (K "old.phy")) none none)._options :=
  C2_error_leaves_options (codemlInit (some (K "old.phy")) none none)
    (K "seqfile = new.phy\nbogus = 1\n") (.invalidOption (K "bogus"))
    { codemlInit (some (K "old.phy")) none none with alignment := some (K "new.phy") }
    (by decide)

/-- Every key present in the key list has a lookup result. -/
theorem optLookup_isSome_of_mem {opts : List (PyStr × Option Value)} {k : PyStr}
    (h : k ∈ opts.map Prod.fst) : ∃ w, optLookup opts k = some w := by
  induction opts with
  | nil => simp at h
  | cons p ps ih =>
    rw [List.map_cons] at h
    unfold optLookup
    by_cases hpk : p.1 = k
    · exact ⟨p.2, by rw [if_pos hpk]⟩
    · rw [if_neg hpk]
      rcases List.mem_cons.mp h with h | h
      · exact absurd h.symm hpk
      · exact ih h

/-- C3: a successful `read_ctl_file` fully replaces the option model:
the result's `_options` maps every key of the prior model to its
pending `temp_options` value from the line loop — `None` (absent)
whenever the file did not assign the key — so a key that held a value
before the call but is not assigned in the file is reset to absent,
never retained. -/
theorem C3_full_replace (c : Codeml) (lines : List PyStr) (c' : Codeml)
    (h : read_ctl_lines c lines = .ok c') :
    ∃ (c₂ : Codeml) (t' : Temp), runLines (c, emptyTemp) lines = .ok (c₂, t') ∧
      c'._options = c._options.map (fun p => (p.1, t' p.1)) ∧
      (∀ k, k ∈ c._options.map Prod.fst → t' k = none →
        optLookup c'._options k = some none) := by
  unfold read_ctl_lines at h
  cases hr : runLines (c, emptyTemp) lines with
  | error e2 => rw [hr] at h; cases h
  | ok st2 =>
    rw [hr] at h
    injection h with h2
    have hrepl : c'._options = c._options.map (fun p => (p.1, st2.2 p.1)) := by
      rw [← h2]
      show st2.1._options.map _ = _
      rw [runLines_ok_options hr]
    refine ⟨st2.1, st2.2, by rw [Prod.mk.eta], hrepl, ?_⟩

    intro k hk ht
    rw [hrepl, optLookup_map_replace]
    obtain ⟨w, hw⟩ := optLookup_isSome_of_mem hk
    rw [hw, ht]
    rfl

/-- C3 (witness): reading a one-line file from the default state. -/
theorem C3_full_replace_witness :
    ∃ c', read_ctl_lines (codemlInit none none none) [K "model = 7"] = .ok c' ∧
      ∃ (c₂ : Codeml) (t' : Temp),
        runLines (codemlInit none none none, emptyTemp) [K "model = 7"] = .ok (c₂, t') ∧
        c'._options = (codemlInit none none none)._options.map (fun p => (p.1, t' p.1)) ∧
        (∀ k, k ∈ (codemlInit none none none)._options.map Prod.fst → t' k = none →
          optLookup c'._options k = some none) :=
  ⟨_, rfl, C3_full_replace (codemlInit none none none) [K "model = 7"] _ rfl⟩

/-- C4 (counterexample): the option lines of `write_ctl_file` do not
appear in the declared stable key order.  At the default options the
written lines differ from those of the spec's declared-order writer:
the code iterates a Python 2 `dict`, whose iteration order is the hash
table's slot order. -/
theorem C4_declared_order_counterexample :
    write_ctl_lines (K "a.phy") (K "o.txt") (K "t.nwk") defaultOptions ≠
      write_ctl_lines_declared (K "a.phy") (K "o.txt") (K "t.nwk") defaultOptions := by
  decide

/-- C4 (amended): `write_ctl_file` first emits exactly the three path
lines `seqfile = `, `outfile = `, `treefile = ` in that fixed order,
then one line `key = value` per non-absent option key — every
non-absent key exactly once, absent keys producing no line — but the
option lines follow the `_options` dict's iteration order
(`dictOrderKeys`: deterministic for the canonical key set, modelled for
CPython 2.7, 64-bit, hash randomisation off), not the declared key
order. -/
theorem C4_write_structure (a o t : PyStr) (opts : List (PyStr × Option Value))
    (hv : ValidOpts opts) :
    write_ctl_lines a o t opts =
      (K "seqfile = " ++ a) :: (K "outfile = " ++ o) :: (K "treefile = " ++ t) ::
        dictOrderKeys.filterMap (fun k =>
          match optLookup opts k with
          | some (some v) => some (ctlOptionLine k v)
          | _ => none) ∧
    ((write_ctl_lines a o t opts).drop 3).map lineKey =
      dictOrderKeys.filter (fun k => isSet (optLookup opts k)) ∧
    (((write_ctl_lines a o t opts).drop 3).map lineKey).Nodup ∧
    (∀ k, isSet (optLookup opts k) = false →
      k ∉ ((write_ctl_lines a o t opts).drop 3).map lineKey) := by
  have hordw : dictIterKeys (opts.map Prod.fst) = dictOrderKeys := by rw [hv]; rfl
  have h1 : write_ctl_lines a o t opts =
      (K "seqfile = " ++ a) :: (K "outfile = " ++ o) :: (K "treefile = " ++ t) ::
        dictOrderKeys.filterMap (fun k =>
          match optLookup opts k with
          | some (some v) => some (ctlOptionLine k v)
          | _ => none) := by
    unfold write_ctl_lines
    rw [hordw]
  have h2 : ((write_ctl_lines a o t opts).drop 3).map lineKey =
      dictOrderKeys.filter (fun k => isSet (optLookup opts k)) := by
    rw [h1]
    simp only [List.drop_succ_cons, List.drop_zero]
    exact filterMap_lines_keys opts dictOrderKeys dictOrderKeys_facts.2.1
  refine ⟨h1, h2, ?_, ?_⟩
  · rw [h2]
    exact dictOrderKeys_facts.1.filter _
  · intro k hset hmem
    rw [h2] at hmem
    rw [List.mem_filter] at hmem
    rw [hmem.2] at hset
    cases hset

/-- C4 (witness): the amended write structure at the default options. -/
theorem C4_write_structure_witness :
    write_ctl_lines (K "a.phy") (K "o.txt") (K "t.nwk") defaultOptions =
      (K "seqfile = " ++ K "a.phy") :: (K "outfile = " ++ K "o.txt") ::
        (K "treefile = " ++ K "t.nwk") ::
        dictOrderKeys.filterMap (fun k =>
          match optLookup defaultOptions k with
          | some (some v) => some (ctlOptionLine k v)
          | _ => none) ∧
    ((write_ctl_lines (K "a.phy") (K "o.txt") (K "t.nwk") defaultOptions).drop 3).map lineKey =
      dictOrderKeys.filter (fun k => isSet (optLookup defaultOptions k)) ∧
    (((write_ctl_lines (K "a.phy") (K "o.txt") (K "t.nwk") defaultOptions).drop 3).map
      lineKey).Nodup ∧
    (∀ k, isSet (optLookup defaultOptions k) = false →
      k ∉ ((write_ctl_lines (K "a.phy") (K "o.txt") (K "t.nwk") defaultOptions).drop 3).map
        lineKey) :=
  C4_write_structure (K "a.phy") (K "o.txt") (K "t.nwk") defaultOptions (by decide)

/-- C5 (counterexample): a line with more than one `=` is not rejected
as a malformed line naming the offending line: it raises the bare
tuple-unpacking `ValueError` (which carries no line text) instead of
the `AttributeError` naming the line. -/
theorem C5_counterexample :
    read_ctl_file (codemlInit none none none) (K "model = 2 = 3\n") =
      .error (.unpackErr, codemlInit none none none) ∧
    CtlErr.unpackErr ≠ CtlErr.malformedLine (K "model = 2 = 3") := by
  refine ⟨by decide, by decide⟩

/-- C5 (amended): a line that is non-empty after comment stripping and
has no `=` fails with the malformed-line `AttributeError` whose message
carries the stripped line text; a line whose uncommented text contains
two or more `=` also fails, but with the generic unpacking `ValueError`
that references no line. -/
theorem C5_separator (c : Codeml) (temp : Temp) (raw : PyStr) :
    (beforeStar (pyStrip raw) ≠ [] → '=' ∉ beforeStar (pyStrip raw) →
      processLine (c, temp) raw = .error (.malformedLine (pyStrip raw), c)) ∧
    (∀ u1 u2 u3 : PyStr, '=' ∉ u1 → '=' ∉ u2 →
      beforeStar (pyStrip raw) = u1 ++ ('=' :: u2) ++ ('=' :: u3) →
      processLine (c, temp) raw = .error (.unpackErr, c)) := by
  constructor
  · intro hne hnm
    simp only [processLine]
    rw [if_neg hne, if_pos hnm]
  · intro u1 u2 u3 h1 h2 hdec
    have hshape : beforeStar (pyStrip raw) = u1 ++ '=' :: (u2 ++ '=' :: u3) := by
      rw [hdec]; simp
    have hne : beforeStar (pyStrip raw) ≠ [] := by
      rw [hshape]; simp
    have hmem : '=' ∈ beforeStar (pyStrip raw) := by
      rw [hshape]; simp
    simp only [processLine]
    rw [if_neg hne, if_neg (not_not_intro hmem), hshape,
      splitChar_append _ h1, splitChar_append _ h2]
    cases h : splitChar '=' u3 with
    | nil => exact absurd h (splitChar_ne_nil _ _)
    | cons p ps => rfl

/-- C5 (witness): the two separator behaviours at concrete lines. -/
theorem C5_separator_witness :
    processLine (codemlInit none none none, emptyTemp) (K "model 2") =
      .error (.malformedLine (K "model 2"), codemlInit none none none) ∧
    processLine (codemlInit none none none, emptyTemp) (K "model = 2 = 3") =
      .error (.unpackErr, codemlInit none none none) :=
  ⟨(C5_separator (codemlInit none none none) emptyTemp (K "model 2")).1
      (by decide) (by decide),
   (C5_separator (codemlInit none none none) emptyTemp (K "model = 2 = 3")).2
      (K "model ") (K " 2 ") (K " 3") (by decide) (by decide) (by decide)⟩

/-- C6 (counterexample): the reader does not split the `NSsites` value
on whitespace.  For the value `"0\t1"` every whitespace-separated
token (`"0"`, `"1"`) converts to an integer, so the claim says the
list `[0, 1]` is stored; the code's `value.split(" ")` leaves the
single token `"0\t1"`, whose `int` conversion fails, and the call
raises the site-class `TypeError` naming `"0\t1"` instead. -/
theorem C6_whitespace_counterexample :
    splitWhitespaceSpec (K "0\t1") = [K "0", K "1"] ∧
    (splitWhitespaceSpec (K "0\t1")).mapM pyInt = some [0, 1] ∧
    processParsed (codemlInit none none none) emptyTemp (K "NSsites") (K "0\t1") =
      .error (.siteClass (K "0\t1"), codemlInit none none none) := by
  refine ⟨by decide, by decide, ?_⟩
  unfold processParsed
  rw [if_neg (by decide), if_neg (by decide), if_neg (by decide), if_pos rfl,
    show parseSiteClasses (splitChar ' ' (K "0\t1")) = .error (K "0\t1") from by decide]

/-- C6 (amended): for a line assigning `NSsites`, the reader splits
the value on *single spaces* (`value.split(" ")`), not on general
whitespace: every single-space-separated token must convert with `int`
and the list of integers is stored, and a token that does not convert
(which includes any token containing a tab, and the empty token
produced by consecutive spaces) fails with the site-class `TypeError`
naming the first bad token.  The value `[0, 1, 2]` serializes to
`NSsites = 0 1 2`, and reading that line back stores `[0, 1, 2]`. -/
theorem C6_NSsites_serialization (c : Codeml) (temp : Temp) :
    (∀ v ns, (splitChar ' ' v).mapM pyInt = some ns →
      processParsed c temp (K "NSsites") v =
        .ok (c, tempSet temp (K "NSsites") (.vList ns))) ∧
    (∀ v (xs : List PyStr) tok ys, splitChar ' ' v = xs ++ tok :: ys →
      (∀ x ∈ xs, (pyInt x).isSome = true) → pyInt tok = none →
      processParsed c temp (K "NSsites") v = .error (.siteClass tok, c)) ∧
    ctlOptionLine (K "NSsites") (.vList [0, 1, 2]) = K "NSsites = 0 1 2" ∧
    processLine (c, temp) (K "NSsites = 0 1 2") =
      .ok (c, tempSet temp (K "NSsites") (.vList [0, 1, 2])) := by
  refine ⟨?_, ?_, by decide, ?_⟩
  · intro v ns h
    unfold processParsed
    rw [if_neg (by decide), if_neg (by decide), if_neg (by decide), if_pos rfl,
      parseSiteClasses_of_mapM h]
  · intro v xs tok ys hsplit hall htok
    unfold processParsed
    rw [if_neg (by decide), if_neg (by decide), if_neg (by decide), if_pos rfl, hsplit,
      parseSiteClasses_first_bad xs tok ys hall htok]
  · rfl

/-- C6 (witness): the site-class behaviours at concrete values. -/
theorem C6_NSsites_witness :
    processParsed (codemlInit none none none) emptyTemp (K "NSsites") (K "7 8") =
      .ok (codemlInit none none none, tempSet emptyTemp (K "NSsites") (.vList [7, 8])) ∧
    processParsed (codemlInit none none none) emptyTemp (K "NSsites") (K "0 x") =
      .error (.siteClass (K "x"), codemlInit none none none) ∧
    ctlOptionLine (K "NSsites") (.vList [0, 1, 2]) = K "NSsites = 0 1 2" :=
  ⟨(C6_NSsites_serialization (codemlInit none none none) emptyTemp).1
      (K "7 8") [7, 8] (by decide),
   (C6_NSsites_serialization (codemlInit none none none) emptyTemp).2.1
      (K "0 x") [K "0"] (K "x") [] (by decide) (by decide) (by decide),
   (C6_NSsites_serialization (codemlInit none none none) emptyTemp).2.2.1⟩

/-- C7: for a non-path, non-list option key, the reader stores the
type-inferred value: with a decimal point it stores the `float`
conversion, falling back to the raw string when conversion fails (so
`model = 2.x` stores the string `"2.x"` without error); otherwise the
`int` conversion, falling back to the raw string. -/
theorem C7_type_inference (c : Codeml) (temp : Temp) (k v : PyStr)
    (hks : k ≠ K "seqfile") (hkt : k ≠ K "treefile") (hko : k ≠ K "outfile")
    (hns : k ≠ K "NSsites") (hmem : k ∈ c._options.map Prod.fst) :
    processParsed c temp k v = .ok (c, tempSet temp k (inferValue v)) ∧
    (∀ q, '.' ∈ v → pyFloat v = some q → inferValue v = .vFloat q) ∧
    ('.' ∈ v → pyFloat v = none → inferValue v = .vStr v) ∧
    (∀ n, '.' ∉ v → pyInt v = some n → inferValue v = .vInt n) ∧
    ('.' ∉ v → pyInt v = none → inferValue v = .vStr v) ∧
    inferValue (K "2.x") = .vStr (K "2.x") := by
  refine ⟨processParsed_store c temp k v hks hkt hko hns hmem, ?_, ?_, ?_, ?_, by decide⟩
  · intro q hd hf
    unfold inferValue
    rw [if_pos hd, hf]
  · intro hd hf
    unfold inferValue
    rw [if_pos hd, hf]
  · intro n hd hi
    unfold inferValue
    rw [if_neg hd, hi]
  · intro hd hi
    unfold inferValue
    rw [if_neg hd, hi]

/-- C7 (witness): storing `model = 2.x` as the raw string. -/
theorem C7_type_inference_witness :
    processParsed (codemlInit none none none) emptyTemp (K "model") (K "2.x") =
      .ok (codemlInit none none none,
        tempSet emptyTemp (K "model") (inferValue (K "2.x"))) ∧
    inferValue (K "2.x") = .vStr (K "2.x") :=
  ⟨(C7_type_inference (codemlInit none none none) emptyTemp (K "model") (K "2.x")
      (by decide) (by decide) (by decide) (by decide) (by decide)).1,
   (C7_type_inference (codemlInit none none none) emptyTemp (K "model") (K "2.x")
      (by decide) (by decide) (by decide) (by decide) (by decide)).2.2.2.2.2⟩

/-- C8: the option model's key set is exactly the declared key set
after construction (with exactly one entry per key — the key list has
no duplicates), is preserved by `read_ctl_file` whether it succeeds or
fails, and a control-file key outside the set (and not one of
`seqfile`/`treefile`/`outfile`/`NSsites`) makes the reader fail with
the `KeyError` naming that key, so an unknown key is never accepted
into the model.  (`write_ctl_file` reads the state and returns text,
so it preserves the model trivially.) -/
theorem C8_key_set_invariant :
    ((codemlInit none none none)._options.map Prod.fst = optionKeys ∧ optionKeys.Nodup) ∧
    (∀ (c : Codeml) (contents : PyStr) (c' : Codeml),
      read_ctl_file c contents = .ok c' →
        c'._options.map Prod.fst = c._options.map Prod.fst) ∧
    (∀ (c : Codeml) (contents : PyStr) (e : CtlErr) (c' : Codeml),
      read_ctl_file c contents = .error (e, c') → c'._options = c._options) ∧
    (∀ (c : Codeml) (temp : Temp) (o v : PyStr),
      o ≠ K "seqfile" → o ≠ K "treefile" → o ≠ K "outfile" → o ≠ K "NSsites" →
      o ∉ c._options.map Prod.fst →
      processParsed c temp o v = .error (.invalidOption o, c)) := by
  refine ⟨⟨by decide, optionKeys_nodup⟩, ?_, ?_, ?_⟩
  · intro c contents c' h
    unfold read_ctl_file read_ctl_lines at h
    cases hr : runLines (c, emptyTemp) (splitChar '\n' contents) with
    | error e2 => rw [hr] at h; cases h
    | ok st2 =>
      rw [hr] at h
      injection h with h2
      rw [← h2]
      show (st2.1._options.map _).map Prod.fst = _
      rw [runLines_ok_options hr, List.map_map]
      rfl
  · intro c contents e c' h
    unfold read_ctl_file read_ctl_lines at h
    cases hr : runLines (c, emptyTemp) (splitChar '\n' contents) with
    | error e2 =>
      rw [hr] at h
      injection h with h2
      subst h2
      simpa using runLines_error_options hr
    | ok st2 => rw [hr] at h; cases h
  · intro c temp o v hks hkt hko hns hmem
    unfold processParsed
    rw [if_neg hks, if_neg hkt, if_neg hko, if_neg hns, if_neg hmem]

/-- C8 (witness): the invariant at concrete inputs: a successful read
keeps the key list, and `bogus = 1` is rejected naming `bogus`. -/
theorem C8_key_set_witness :
    (∃ c', read_ctl_file (codemlInit none none none) (K "model = 2\n") = .ok c' ∧
      c'._options.map Prod.fst = (codemlInit none none none)._options.map Prod.fst) ∧
    processParsed (codemlInit none none none) emptyTemp (K "bogus") (K "1") =
      .error (.invalidOption (K "bogus"), codemlInit none none none) :=
  ⟨⟨_, rfl, C8_key_set_invariant.2.1 (codemlInit none none none) (K "model = 2\n") _ rfl⟩,
   C8_key_set_invariant.2.2.2 (codemlInit none none none) emptyTemp (K "bogus") (K "1")
     (by decide) (by decide) (by decide) (by decide) (by decide)⟩

/-- C9: the results-parser wrapper `read` never returns an empty
document: when the four extraction passes (abstract parameters, since
`_parse_codeml` is an external module) together contribute nothing, it
fails with the `ValueError` (`EmptyResultError`) instead of returning
the empty mapping; and for a nonexistent results path it fails with
`IOError` — `read` touches no `Codeml` state in either case (it is a
pure module-level function in this model). -/
theorem C9_read_results {α : Type} (parse_basics : List PyStr → List α → List α × Bool)
    (parse_nssites : List PyStr → List α → Bool → List α)
    (parse_pairwise parse_distances : List PyStr → List α → List α)
    (lines : List PyStr) :
    (parse_distances lines (parse_pairwise lines (parse_nssites lines
        (parse_basics lines []).1 (parse_basics lines []).2)) = [] →
      codeml.read parse_basics parse_nssites parse_pairwise parse_distances true lines =
        .error .emptyResult) ∧
    codeml.read parse_basics parse_nssites parse_pairwise parse_distances false lines =
      .error .ioError := by
  constructor
  · intro h
    unfold codeml.read
    rw [if_neg (by simp)]
    show (if (parse_distances lines (parse_pairwise lines (parse_nssites lines
        (parse_basics lines []).1 (parse_basics lines []).2))).length = 0
      then (Except.error ResErr.emptyResult : Except ResErr (List α))
      else Except.ok (parse_distances lines (parse_pairwise lines (parse_nssites lines
        (parse_basics lines []).1 (parse_basics lines []).2)))) = Except.error ResErr.emptyResult
    rw [h]
    rfl
  · rfl

/-- C9 (witness): the wrapper at concrete trivial passes. -/
theorem C9_read_results_witness :
    codeml.read (fun (_ : List PyStr) (r : List Nat) => (r, false)) (fun _ r _ => r)
      (fun _ r => r) (fun _ r => r) true [] = .error .emptyResult ∧
    codeml.read (fun (_ : List PyStr) (r : List Nat) => (r, false)) (fun _ r _ => r)
      (fun _ r => r) (fun _ r => r) false [] = .error .ioError :=
  ⟨(C9_read_results (fun _ r => (r, false)) (fun _ r _ => r) (fun _ r => r)
      (fun _ r => r) []).1 rfl,
   (C9_read_results (fun _ r => (r, false)) (fun _ r _ => r) (fun _ r => r)
      (fun _ r => r) []).2⟩

/-- C10: a line assigning a known scalar key with an empty value (only
whitespace after `=`) raises no error: the reader stores the empty
string for that key, and after the final full-replace step the key is
set (to the empty string), not absent. -/
theorem C10_empty_value (c : Codeml) (temp : Temp) (k p : PyStr)
    (hk : k ∈ optionKeys) (hns : k ≠ K "NSsites")
    (hvalid : c._options.map Prod.fst = optionKeys)
    (hp : ∀ ch ∈ p, pyIsSpace ch = true) :
    processLine (c, temp) (k ++ ' ' :: '=' :: ' ' :: p) =
      .ok (c, tempSet temp k (.vStr [])) ∧
    (∀ c', read_ctl_lines c [k ++ ' ' :: '=' :: ' ' :: p] = .ok c' →
      optLookup c'._options k = some (some (.vStr []))) := by
  obtain ⟨hk1, hk2, hk3, hk4, hks, hkt, hko⟩ := optionKeys_facts k hk
  have hpe : '=' ∉ p := fun hm => by
    have := hp '=' hm
    rw [show pyIsSpace '=' = false from by decide] at this
    cases this
  have hsr : stripRight p = [] := by
    unfold stripRight
    rw [dropWhile_nil_of_all (fun ch hm => hp ch (List.mem_reverse.mp hm))]
    rfl
  have key : ∀ tmp : Temp, processLine (c, tmp) (k ++ ' ' :: '=' :: ' ' :: p) =
      .ok (c, tempSet tmp k (.vStr [])) := by
    intro tmp
    rw [processLine_assign c tmp k p hk1 hk2 hk3 hk4 hpe, hsr,
      show pyStrip (beforeStar (if ([] : PyStr) = [] then [] else ' ' :: ([] : PyStr))) = []
        from rfl,
      processParsed_store c tmp k [] hks hkt hko hns (hvalid ▸ hk)]
    rfl
  refine ⟨key temp, ?_⟩
  have hread : read_ctl_lines c [k ++ ' ' :: '=' :: ' ' :: p] =
      .ok { c with _options :=
        c._options.map (fun q => (q.1, tempSet emptyTemp k (.vStr []) q.1)) } := by
    unfold read_ctl_lines
    rw [runLines_cons, key emptyTemp]
    rfl
  intro c' hc'
  rw [hread] at hc'
  injection hc' with h2
  rw [← h2]
  show optLookup (c._options.map _) k = _
  rw [optLookup_map_replace]
  obtain ⟨w, hw⟩ := @optLookup_isSome_of_mem c._options k (by rw [hvalid]; exact hk)
  rw [hw]
  show some (tempSet emptyTemp k (.vStr []) k) = _
  unfold tempSet
  rw [if_pos rfl]

/-- C10 (witness): `ndata` assigned only whitespace stores `""`. -/
theorem C10_empty_value_witness :
    processLine (codemlInit none none none, emptyTemp)
        (K "ndata" ++ ' ' :: '=' :: ' ' :: [' ']) =
      .ok (codemlInit none none none, tempSet emptyTemp (K "ndata") (.vStr [])) ∧
    ∃ c', read_ctl_lines (codemlInit none none none)
        [K "ndata" ++ ' ' :: '=' :: ' ' :: [' ']] = .ok c' ∧
      optLookup c'._options (K "ndata") = some (some (.vStr [])) :=
  ⟨(C10_empty_value (codemlInit none none none) emptyTemp (K "ndata") [' ']
      (by decide) (by decide) (by decide) (by decide)).1,
   ⟨_, rfl, (C10_empty_value (codemlInit none none none) emptyTemp (K "ndata") [' ']
      (by decide) (by decide) (by decide) (by decide)).2 _ rfl⟩⟩
